import Mathlib

/-!
Verification of the xcstrings reconciliation, merge and serialization core.

Shallow embedding of the string-catalog reconciliation engine of the
`ios-vibe-localizer` GitHub Action, together with proofs of the testable
properties stated in its specification.

JavaScript objects with string keys preserve insertion order, so every
object-typed map of the source (`strings`, `localizations`, trace maps,
provider responses) is embedded as an ordered association list.
-/

namespace IosVibeLocalizer

/-! ## Data model (from `src/types.ts`) -/

/-- One `stringUnit` of a localization: `{ state, value }`. -/
structure StringUnit where
  state : String
  value : String
deriving DecidableEq, Repr

/-- One language entry of a `localizations` map.  `types.ts` declares
`stringUnit` as mandatory, but the reconciliation condition in the source
(`!currentStringEntry.localizations[lang]?.stringUnit`) treats it as
possibly absent, so it is embedded as an `Option`. -/
structure Localization where
  stringUnit : Option StringUnit
deriving DecidableEq, Repr

/-- One entry of the `strings` map of an `.xcstrings` catalog. -/
structure StringEntry where
  comment : Option String
  extractionState : Option String
  shouldTranslate : Option Bool
  localizations : Option (List (String × Localization))
deriving DecidableEq, Repr

/-- The catalog root (`XCStrings` in `src/types.ts`). -/
structure XCStrings where
  sourceLanguage : String
  version : String
  strings : List (String × StringEntry)
deriving DecidableEq, Repr

/-- `TranslationRequest` from `src/types.ts`. -/
structure TranslationRequest where
  key : String
  text : String
  targetLanguages : List String
  comment : Option String
deriving DecidableEq, Repr

/-- Per-key trace record of one reconciliation pass: the languages that were
requested and, per language, whether the localization entry was freshly
created (`isNew`). -/
structure TraceEntry where
  languages : List String
  isNew : List (String × Bool)
deriving DecidableEq, Repr

/-- One provider result (`TranslationResult` in `src/types.ts`): a key and a
language-to-text map. -/
structure TranslationResult where
  key : String
  translations : List (String × String)
deriving DecidableEq, Repr

/-- `BatchTranslationResponse` from `src/types.ts`. -/
structure BatchTranslationResponse where
  translations : List TranslationResult
deriving DecidableEq, Repr

/-- Ordered-association-list lookup, the embedding of a JS property read
`obj[k]`. -/
def lookupA {α : Type} (l : List (String × α)) (k : String) : Option α :=
  (l.find? (fun p => p.1 == k)).map (fun p => p.2)

/-- Embedding of a JS property write `obj[k] = v`: replaces the binding in
place if `k` is present, otherwise appends it (JS insertion order). -/
def insertA {α : Type} (l : List (String × α)) (k : String) (v : α) :
    List (String × α) :=
  if (l.find? (fun p => p.1 == k)).isSome then
    l.map (fun p => if p.1 == k then (k, v) else p)
  else
    l ++ [(k, v)]

/-! ## Reconciliation engine

The analyzer `analyzeStringsForTranslation` lives in
`src/helpers/stringAnalyzer.ts`, which is not part of the snapshot; only its
unit tests and its callers are.  The definitions below are modelled from the
spec (section 4.1) and pinned against those unit tests; the per-language
"needs translation" condition is additionally taken verbatim from the inline
predecessor of the analyzer in the action's `run()` function. -/

/-- The per-language "needs translation" test, from the source condition
`!localizations[lang] || !localizations[lang]?.stringUnit ||
!localizations[lang]?.stringUnit.value` (an entry with no `localizations`
map needs every language). -/
def needsTranslation (e : StringEntry) (lang : String) : Bool :=
  match e.localizations with
  | none => true
  | some locs =>
    match lookupA locs lang with
    | none => true
    | some loc =>
      match loc.stringUnit with
      | none => true
      | some u => u.value == ""

/-- Whether a needed language is a brand-new localization entry (no entry for
that language existed at all), as opposed to a refresh of an existing empty
entry.  From the source `isNewTranslation = !currentStringEntry.localizations[lang]`. -/
def isNewForLang (e : StringEntry) (lang : String) : Bool :=
  match e.localizations with
  | none => true
  | some locs => (lookupA locs lang).isNone

/-- `extractionState === "stale"`. -/
def isStale (e : StringEntry) : Bool :=
  e.extractionState == some "stale"

/-- `shouldTranslate === false`. -/
def isSkipped (e : StringEntry) : Bool :=
  e.shouldTranslate == some false

/-- The placeholder unit materialized for a needed language:
`{ stringUnit: { state: "translated", value: "" } }`. -/
def placeholderLocalization : Localization :=
  { stringUnit := some { state := "translated", value := "" } }

/-- Materialize placeholder localization entries for the needed languages of
one entry: a missing language entry is created with the placeholder; an
existing entry (empty or unit-less) is left for the merge phase.  With no
needed languages the entry is returned verbatim. -/
def materializeEntry (e : StringEntry) (needed : List String) : StringEntry :=
  if needed.isEmpty then e
  else
    let locs := e.localizations.getD []
    { e with
      localizations :=
        some (needed.foldl
          (fun acc lang =>
            if (lookupA acc lang).isSome then acc
            else insertA acc lang placeholderLocalization)
          locs) }

/-- The languages of the target list (in requested order) that an entry still
needs. -/
def neededLangs (L : List String) (e : StringEntry) : List String :=
  L.filter (fun lang => needsTranslation e lang)

/-- Result record of the analyzer, shaped as in the analyzer's unit tests:
working catalog, requests, trace map, stale-removal list and modified flag. -/
structure AnalyzeResult where
  modifiedXcstringsData : XCStrings
  translationRequests : List TranslationRequest
  stringTranslationMap : List (String × TraceEntry)
  staleRemoved : List String
  xcstringsModified : Bool
deriving DecidableEq, Repr

/-- Modelled from the spec: `analyzeStringsForTranslation` of
`src/helpers/stringAnalyzer.ts` (absent from the snapshot; only its unit
tests are present).  Per catalog entry in order: a stale entry is removed
from the working catalog and recorded in `staleRemoved`; a
`shouldTranslate === false` entry is copied verbatim; otherwise the needed
target languages are computed, placeholders materialized, and one
`TranslationRequest` plus one `TraceEntry` emitted when any language is
needed.  `modified` is true if any stale removal occurred or any entry
requires translation (spec section 4.1, step 6). -/
def analyzeStringsForTranslation (c : XCStrings) (L : List String) :
    AnalyzeResult :=
  let working := (c.strings.filter (fun p => !isStale p.2)).map
    (fun p =>
      (p.1, materializeEntry p.2 (if isSkipped p.2 then [] else neededLangs L p.2)))
  let requests := c.strings.filterMap
    (fun p =>
      if isStale p.2 || isSkipped p.2 then none
      else
        let needed := neededLangs L p.2
        if needed.isEmpty then none
        else some { key := p.1, text := p.1, targetLanguages := needed,
                    comment := p.2.comment })
  let trace := c.strings.filterMap
    (fun p =>
      if isStale p.2 || isSkipped p.2 then none
      else
        let needed := neededLangs L p.2
        if needed.isEmpty then none
        else some (p.1,
          ({ languages := needed,
             isNew := needed.map (fun lang => (lang, isNewForLang p.2 lang)) } :
            TraceEntry)))
  let staleRemoved := c.strings.filterMap
    (fun p => if isStale p.2 then some p.1 else none)
  { modifiedXcstringsData :=
      { c with strings := working },
    translationRequests := requests,
    stringTranslationMap := trace,
    staleRemoved := staleRemoved,
    xcstringsModified := !(staleRemoved.isEmpty && requests.isEmpty) }

/-! ## Result merger

The merge phase of the final `run()` is likewise absent from the snapshot;
it is modelled from the spec (section 4.2).  The change-string format and
the added/updated classification are taken verbatim from the inline
predecessor in the action's `run()`
(`const changeKey = key + " (" + lang + ")"; if (isNewTranslation) added
else updated`). -/

/-- The change string `"<key> (<language>)"`. -/
def changeKey (k lang : String) : String :=
  k ++ " (" ++ lang ++ ")"

/-- Write one translated value into the working catalog:
`entry.localizations[lang].stringUnit = { state: "translated", value }`. -/
def writeTranslation (c : XCStrings) (k lang value : String) : XCStrings :=
  let updEntry := fun (e : StringEntry) =>
    { e with
      localizations :=
        some (insertA (e.localizations.getD []) lang
          { stringUnit := some { state := "translated", value := value } }) }
  { c with
    strings := c.strings.map (fun p => if p.1 == k then (p.1, updEntry p.2) else p) }

/-- Output of the merger: final catalog and the added/updated change lists. -/
structure MergeResult where
  finalCatalog : XCStrings
  added : List String
  updated : List String
deriving DecidableEq, Repr

/-- The (language, value) pairs of one provider result that are in scope:
the result's key must have a `TraceEntry`, and each language must be in that
trace's `languages` list (spec section 4.2, defensive filtering). -/
def scopedPairs (trace : List (String × TraceEntry)) (r : TranslationResult) :
    List (String × String) :=
  match lookupA trace r.key with
  | none => []
  | some te => r.translations.filter (fun p => te.languages.contains p.1)

/-- Apply one in-scope (language, value) pair of the result for key `k`:
write the value and classify the change via the trace's `isNew` map. -/
def mergePair (trace : List (String × TraceEntry)) (k : String)
    (acc : MergeResult) (p : String × String) : MergeResult :=
  let isNew :=
    match lookupA trace k with
    | none => false
    | some te => (lookupA te.isNew p.1).getD false
  { finalCatalog := writeTranslation acc.finalCatalog k p.1 p.2,
    added := acc.added ++ (if isNew then [changeKey k p.1] else []),
    updated := acc.updated ++ (if isNew then [] else [changeKey k p.1]) }

/-- Apply one provider result: its in-scope pairs in order. -/
def mergeStep (trace : List (String × TraceEntry))
    (acc : MergeResult) (r : TranslationResult) : MergeResult :=
  (scopedPairs trace r).foldl (mergePair trace r.key) acc

/-- Modelled from the spec: the merge phase (section 4.2).  Each provider
result is looked up in the trace map; results for unknown keys are skipped
without failing, languages outside the trace's scope are ignored, and each
remaining (language, value) pair is written into the working catalog and
classified as `added` or `updated` according to the trace's `isNew` map. -/
def applyTranslations (working : XCStrings)
    (trace : List (String × TraceEntry))
    (resp : BatchTranslationResponse) : MergeResult :=
  resp.translations.foldl (mergeStep trace)
    { finalCatalog := working, added := [], updated := [] }

/-- Drop from a provider response every result whose key has no trace entry,
and within each remaining result every language outside the trace's scope. -/
def filterResponse (trace : List (String × TraceEntry))
    (resp : BatchTranslationResponse) : BatchTranslationResponse :=
  { translations :=
      (resp.translations.filter (fun r => (lookupA trace r.key).isSome)).map
        (fun r => { r with translations := scopedPairs trace r }) }

/-! ## Post-scan side effects (from `src/main.ts`)

The tail of `run()` after the scan loop: the catalog file is rewritten only
when `xcstringsModified` is set, the changed-files list receives the catalog
path only in that case, and the branch/commit/push/pull-request block runs
only when the changed-files list is non-empty. -/

/-- The externally visible side effects of the tail of `run()`. -/
inductive GitAction
  | writeFile (path : String)
  | checkoutNewBranch
  | commitChanges
  | pushBranch
  | openPullRequest
deriving DecidableEq, Repr

/-- The modified flag computed by the scan loop of `run()`: set exactly when
some (key, language) pair needs translation. -/
def scanNeedsAny (c : XCStrings) (L : List String) : Bool :=
  c.strings.any (fun p => L.any (fun lang => needsTranslation p.2 lang))

/-- The side-effect trace of the tail of `run()` (from `src/main.ts`): write
the file if modified, then create branch, commit, push and pull request if
any file was written. -/
def runSideEffects (c : XCStrings) (L : List String) (path : String) :
    List GitAction :=
  let modified := scanNeedsAny c L
  let changedFilesList := if modified then [path] else []
  (if modified then [GitAction.writeFile path] else []) ++
  (if changedFilesList.isEmpty then []
   else [GitAction.checkoutNewBranch, GitAction.commitChanges,
         GitAction.pushBranch, GitAction.openPullRequest])

end IosVibeLocalizer

namespace IosVibeLocalizer

/-! ## Sample data used by witnesses and counterexamples -/

/-- A translated localization unit with the given value. -/
def sampleTr (v : String) : Localization :=
  { stringUnit := some { state := "translated", value := v } }

/-- An entry with no optional field set. -/
def emptyEntry : StringEntry :=
  { comment := none, extractionState := none, shouldTranslate := none,
    localizations := none }

/-- The end-to-end scenario catalog of the spec (section 8): a fresh key, a
partially localized key and a stale key. -/
def sampleCatalog : XCStrings :=
  { sourceLanguage := "en", version := "1.0",
    strings :=
      [("hi", emptyEntry),
       ("bye", { emptyEntry with localizations := some [("es", sampleTr "Adios")] }),
       ("old", { emptyEntry with extractionState := some "stale" })] }

/-- An entry that is both stale and excluded from translation. -/
def staleSkipEntry : StringEntry :=
  { emptyEntry with extractionState := some "stale", shouldTranslate := some false }

/-- A catalog whose only entry is both stale and excluded from translation. -/
def staleSkipCatalog : XCStrings :=
  { sourceLanguage := "en", version := "1.0",
    strings := [("dbg", staleSkipEntry)] }

/-- A catalog whose only entry is excluded from translation and not stale. -/
def skipOnlyCatalog : XCStrings :=
  { sourceLanguage := "en", version := "1.0",
    strings := [("dbg2", { emptyEntry with shouldTranslate := some false })] }

/-- A catalog whose only entry is stale. -/
def staleOnlyCatalog : XCStrings :=
  { sourceLanguage := "en", version := "1.0",
    strings := [("old", { emptyEntry with extractionState := some "stale" })] }

end IosVibeLocalizer

namespace IosVibeLocalizer

/-! ## Catalog serializer

The final `run()` serializes the catalog with `formatXcstringsJson()`, which
matches Xcode's own writer: 2-space-indented `JSON.stringify` output with one
space inserted before every key-terminating colon.  That function is absent
from the snapshot (the inline predecessor in the source writes plain
`JSON.stringify(data, null, 2)`), so the Xcode-style printer is modelled from
the spec (section 4.3) while the plain printer embeds the source's
`JSON.stringify(currentXcstringsData, null, 2)`.  Both are given as character
list printers over the fixed catalog schema, parameterized by the separator
`sp` placed between a key's closing quote and its colon. -/

/-- The double-quote character. -/
def qc : Char := '\"'

/-- The newline character emitted by `JSON.stringify` with an indent. -/
def nlc : Char := '\n'

/-- The opening brace character. -/
def lbc : Char := '\x7b'

/-- The closing brace character. -/
def rbc : Char := '\x7d'

/-- The 2-space indentation prefix at object depth `d`. -/
def indentL (d : Nat) : List Char := List.replicate (2 * d) ' '

/-- The lowercase hex digit for `n < 16`. -/
def hexDigit (n : Nat) : Char :=
  if n < 10 then Char.ofNat (48 + n) else Char.ofNat (87 + n)

/-- `JSON.stringify` escaping of one character inside a string literal. -/
def escapeChar (c : Char) : List Char :=
  if c = qc then ['\\', qc]
  else if c = '\\' then ['\\', '\\']
  else if c.toNat = 8 then ['\\', 'b']
  else if c.toNat = 9 then ['\\', 't']
  else if c.toNat = 10 then ['\\', 'n']
  else if c.toNat = 12 then ['\\', 'f']
  else if c.toNat = 13 then ['\\', 'r']
  else if c.toNat < 32 then
    ['\\', 'u', '0', '0', hexDigit (c.toNat / 16), hexDigit (c.toNat % 16)]
  else [c]

/-- `JSON.stringify` escaping of a whole string body. -/
def escapeString (s : String) : List Char := s.data.flatMap escapeChar

/-- A JSON string literal. -/
def strL (s : String) : List Char := qc :: (escapeString s ++ [qc])

/-- A JSON boolean literal. -/
def boolL (b : Bool) : List Char :=
  if b then ['t', 'r', 'u', 'e'] else ['f', 'a', 'l', 's', 'e']

/-- The members of a JSON object, one per line: each key indented at `ind`,
then the separator `sp`, a colon, one space and the pre-rendered value. -/
def printItemsL (ind sp : List Char) : List (String × List Char) → List Char
  | [] => []
  | [kv] => ind ++ (strL kv.1 ++ (sp ++ (':' :: ' ' :: kv.2)))
  | kv :: rest =>
    (ind ++ (strL kv.1 ++ (sp ++ (':' :: ' ' :: kv.2)))) ++
      (',' :: nlc :: printItemsL ind sp rest)

/-- A JSON object at depth `d` with pre-rendered member values, following
`JSON.stringify(x, null, 2)` layout (`\x7b\x7d` when empty). -/
def printObjL (d : Nat) (sp : List Char) (kvs : List (String × List Char)) :
    List Char :=
  if kvs.isEmpty then [lbc, rbc]
  else lbc :: nlc :: (printItemsL (indentL (d + 1)) sp kvs ++
    (nlc :: (indentL d ++ [rbc])))

/-- Rendering of one `stringUnit`. -/
def printUnitL (sp : List Char) (d : Nat) (u : StringUnit) : List Char :=
  printObjL d sp [("state", strL u.state), ("value", strL u.value)]

/-- Rendering of one localization (its optional `stringUnit` member). -/
def printLocL (sp : List Char) (d : Nat) (loc : Localization) : List Char :=
  printObjL d sp
    ((loc.stringUnit.map (fun u => ("stringUnit", printUnitL sp (d + 1) u))).toList)

/-- Rendering of a `localizations` map. -/
def printLocsL (sp : List Char) (d : Nat)
    (locs : List (String × Localization)) : List Char :=
  printObjL d sp (locs.map (fun p => (p.1, printLocL sp (d + 1) p.2)))

/-- Rendering of one catalog entry: its present optional fields in
declaration order. -/
def printEntryL (sp : List Char) (d : Nat) (e : StringEntry) : List Char :=
  printObjL d sp
    ((e.comment.map (fun s => ("comment", strL s))).toList ++
     ((e.extractionState.map (fun s => ("extractionState", strL s))).toList ++
      ((e.shouldTranslate.map (fun b => ("shouldTranslate", boolL b))).toList ++
       (e.localizations.map
         (fun locs => ("localizations", printLocsL sp (d + 1) locs))).toList)))

/-- Rendering of a whole catalog. -/
def printCatalogL (sp : List Char) (c : XCStrings) : List Char :=
  printObjL 0 sp
    [("sourceLanguage", strL c.sourceLanguage),
     ("version", strL c.version),
     ("strings", printObjL 1 sp (c.strings.map (fun p => (p.1, printEntryL sp 2 p.2))))]

/-- `JSON.stringify(currentXcstringsData, null, 2)` from the source `run()`. -/
def stringifyXcstrings (c : XCStrings) : String :=
  String.mk (printCatalogL [] c)

/-- Modelled from the spec: `formatXcstringsJson` (absent from the snapshot),
the serializer of section 4.3 — Xcode-style rendering with one space between
every key's closing quote and its colon. -/
def formatXcstringsJson (c : XCStrings) : String :=
  String.mk (printCatalogL [' '] c)

/-- The spec's textual transformation (section 4.3): scan the document
tracking JSON string boundaries (with backslash escapes) and insert one space
before every colon that immediately follows a string's closing quote — i.e.
before every key-terminating colon — leaving colons inside string literals
untouched.  `inStr` is true while inside a string literal. -/
def addKS : Bool → List Char → List Char
  | _, [] => []
  | true, [c] => [c]
  | true, c :: d :: rest =>
    if c = '\\' then c :: d :: addKS true rest
    else if c = qc then
      (if d = ':' then c :: ' ' :: ':' :: addKS false rest
       else c :: addKS false (d :: rest))
    else c :: addKS true (d :: rest)
  | false, c :: rest =>
    if c = qc then c :: addKS true rest else c :: addKS false rest

/-- String-level wrapper of `addKS`, starting outside any string literal. -/
def addSpaceBeforeKeyColons (s : String) : String :=
  String.mk (addKS false s.data)

/-- `v0` rewrites to `v1` under the key-colon transform whenever scanned from
outside a string and not followed directly by a colon (values in stringify
output are always followed by a comma, a newline or the end of input). -/
def PassesKS (v0 v1 : List Char) : Prop :=
  ∀ rest, rest.head? ≠ some ':' →
    addKS false (v0 ++ rest) = v1 ++ addKS false rest

/-! ## Catalog parser

The round-trip property of the serializer is stated against a parser
modelled from the spec: `JSON.parse` as used on catalog text, specialized to
the catalog schema in the member order the serializer emits (string and
boolean values, whitespace-insensitive around structural tokens, full JSON
string-escape handling).  The two iterated maps (`strings` and
`localizations`) are parsed with an explicit fuel bounded by the input
length. -/

/-- Drop JSON insignificant whitespace (the serializer only emits spaces and
newlines). -/
def skipWs : List Char → List Char
  | [] => []
  | c :: rest => if c = ' ' ∨ c = nlc then skipWs rest else c :: rest

/-- Consume an expected literal token. -/
def expectTok : List Char → List Char → Option (List Char)
  | [], s => some s
  | _ :: _, [] => none
  | t :: ts, c :: s => if c = t then expectTok ts s else none

/-- The value of one hex digit. -/
def hexVal (c : Char) : Option Nat :=
  if '0' ≤ c ∧ c ≤ '9' then some (c.toNat - 48)
  else if 'a' ≤ c ∧ c ≤ 'f' then some (c.toNat - 87)
  else if 'A' ≤ c ∧ c ≤ 'F' then some (c.toNat - 55)
  else none

/-- The single-character JSON escapes. -/
def unescape1 (e : Char) : Option Char :=
  if e = qc then some qc
  else if e = '\\' then some '\\'
  else if e = '/' then some '/'
  else if e = 'n' then some nlc
  else if e = 't' then some (Char.ofNat 9)
  else if e = 'r' then some (Char.ofNat 13)
  else if e = 'b' then some (Char.ofNat 8)
  else if e = 'f' then some (Char.ofNat 12)
  else none

/-- Parse a JSON string body up to and including the closing quote,
undoing the escapes. -/
def pStrContent : List Char → Option (List Char × List Char)
  | [] => none
  | c :: rest =>
    if c = qc then some ([], rest)
    else if c = '\\' then
      match rest with
      | [] => none
      | e :: rest2 =>
        if e = 'u' then
          match rest2 with
          | h1 :: h2 :: h3 :: h4 :: rest3 =>
            match hexVal h1, hexVal h2, hexVal h3, hexVal h4 with
            | some a, some b, some c1, some d1 =>
              (pStrContent rest3).map
                (fun r => (Char.ofNat (4096 * a + 256 * b + 16 * c1 + d1) :: r.1, r.2))
            | _, _, _, _ => none
          | _ => none
        else
          match unescape1 e with
          | none => none
          | some u => (pStrContent rest2).map (fun r => (u :: r.1, r.2))
    else if c.toNat < 32 then none
    else (pStrContent rest).map (fun r => (c :: r.1, r.2))

/-- Parse a JSON string literal. -/
def pString (s : List Char) : Option (String × List Char) :=
  match s with
  | c :: rest =>
    if c = qc then (pStrContent rest).map (fun r => (String.mk r.1, r.2))
    else none
  | [] => none

/-- Parse a JSON boolean literal. -/
def pBool (s : List Char) : Option (Bool × List Char) :=
  match expectTok ['t', 'r', 'u', 'e'] s with
  | some rest => some (true, rest)
  | none =>
    match expectTok ['f', 'a', 'l', 's', 'e'] s with
    | some rest => some (false, rest)
    | none => none

/-- Parse a `stringUnit` object. -/
def pUnit (s : List Char) : Option (StringUnit × List Char) := do
  let s ← expectTok [lbc] (skipWs s)
  let ks ← pString (skipWs s)
  if ks.1 ≠ "state" then none else
  let s ← expectTok [':'] (skipWs ks.2)
  let st ← pString (skipWs s)
  let s ← expectTok [','] (skipWs st.2)
  let kv ← pString (skipWs s)
  if kv.1 ≠ "value" then none else
  let s ← expectTok [':'] (skipWs kv.2)
  let v ← pString (skipWs s)
  let s ← expectTok [rbc] (skipWs v.2)
  some ({ state := st.1, value := v.1 }, s)

/-- Parse one localization object (an optional `stringUnit` member). -/
def pLoc (s : List Char) : Option (Localization × List Char) := do
  let s ← expectTok [lbc] (skipWs s)
  let s2 := skipWs s
  if s2.head? = some rbc then some ({ stringUnit := none }, s2.tail)
  else do
    let ks ← pString s2
    if ks.1 ≠ "stringUnit" then none else
    let s3 ← expectTok [':'] (skipWs ks.2)
    let u ← pUnit (skipWs s3)
    let s4 ← expectTok [rbc] (skipWs u.2)
    some ({ stringUnit := some u.1 }, s4)

/-- Parse the members of a non-empty `localizations` object, consuming the
closing brace. -/
def pLocsItems (fuel : Nat) (s : List Char) :
    Option (List (String × Localization) × List Char) :=
  match fuel with
  | 0 => none
  | fuel + 1 => do
    let ks ← pString (skipWs s)
    let s ← expectTok [':'] (skipWs ks.2)
    let loc ← pLoc (skipWs s)
    match skipWs loc.2 with
    | [] => none
    | c :: rest =>
      if c = ',' then
        (pLocsItems fuel rest).map (fun r => ((ks.1, loc.1) :: r.1, r.2))
      else if c = rbc then some ([(ks.1, loc.1)], rest)
      else none

/-- Parse a `localizations` object. -/
def pLocs (fuel : Nat) (s : List Char) :
    Option (List (String × Localization) × List Char) := do
  let s ← expectTok [lbc] (skipWs s)
  let s2 := skipWs s
  if s2.head? = some rbc then some ([], s2.tail)
  else pLocsItems fuel s2

/-- Parse the members of a non-empty entry object, dispatching on the member
name and accumulating fields, consuming the closing brace. -/
def pEntryItems (fuel : Nat) (acc : StringEntry) (s : List Char) :
    Option (StringEntry × List Char) :=
  match fuel with
  | 0 => none
  | fuel + 1 => do
    let ks ← pString (skipWs s)
    let s ← expectTok [':'] (skipWs ks.2)
    let av ←
      (if ks.1 = "comment" then
        (pString (skipWs s)).map
          (fun r => (({ acc with comment := some r.1 } : StringEntry), r.2))
      else if ks.1 = "extractionState" then
        (pString (skipWs s)).map
          (fun r => (({ acc with extractionState := some r.1 } : StringEntry), r.2))
      else if ks.1 = "shouldTranslate" then
        (pBool (skipWs s)).map
          (fun r => (({ acc with shouldTranslate := some r.1 } : StringEntry), r.2))
      else if ks.1 = "localizations" then
        (pLocs fuel (skipWs s)).map
          (fun r => (({ acc with localizations := some r.1 } : StringEntry), r.2))
      else none)
    match skipWs av.2 with
    | [] => none
    | c :: rest =>
      if c = ',' then pEntryItems fuel av.1 rest
      else if c = rbc then some (av.1, rest)
      else none

/-- The entry with no field set, the accumulator seed of `pEntryItems`. -/
def blankEntry : StringEntry :=
  { comment := none, extractionState := none, shouldTranslate := none,
    localizations := none }

/-- Parse one entry object. -/
def pEntry (fuel : Nat) (s : List Char) : Option (StringEntry × List Char) := do
  let s ← expectTok [lbc] (skipWs s)
  let s2 := skipWs s
  if s2.head? = some rbc then some (blankEntry, s2.tail)
  else pEntryItems fuel blankEntry s2

/-- Parse the members of a non-empty `strings` object, consuming the closing
brace. -/
def pStringsItems (fuel : Nat) (s : List Char) :
    Option (List (String × StringEntry) × List Char) :=
  match fuel with
  | 0 => none
  | fuel + 1 => do
    let ks ← pString (skipWs s)
    let s ← expectTok [':'] (skipWs ks.2)
    let e ← pEntry fuel (skipWs s)
    match skipWs e.2 with
    | [] => none
    | c :: rest =>
      if c = ',' then
        (pStringsItems fuel rest).map (fun r => ((ks.1, e.1) :: r.1, r.2))
      else if c = rbc then some ([(ks.1, e.1)], rest)
      else none

/-- Parse a `strings` object. -/
def pStrings (fuel : Nat) (s : List Char) :
    Option (List (String × StringEntry) × List Char) := do
  let s ← expectTok [lbc] (skipWs s)
  let s2 := skipWs s
  if s2.head? = some rbc then some ([], s2.tail)
  else pStringsItems fuel s2

/-- Parse a whole catalog object. -/
def pCatalog (fuel : Nat) (s : List Char) : Option (XCStrings × List Char) := do
  let s ← expectTok [lbc] (skipWs s)
  let k1 ← pString (skipWs s)
  if k1.1 ≠ "sourceLanguage" then none else
  let s ← expectTok [':'] (skipWs k1.2)
  let src ← pString (skipWs s)
  let s ← expectTok [','] (skipWs src.2)
  let k2 ← pString (skipWs s)
  if k2.1 ≠ "version" then none else
  let s ← expectTok [':'] (skipWs k2.2)
  let ver ← pString (skipWs s)
  let s ← expectTok [','] (skipWs ver.2)
  let k3 ← pString (skipWs s)
  if k3.1 ≠ "strings" then none else
  let s ← expectTok [':'] (skipWs k3.2)
  let strs ← pStrings fuel (skipWs s)
  let s ← expectTok [rbc] (skipWs strs.2)
  some ({ sourceLanguage := src.1, version := ver.1, strings := strs.1 }, s)

/-- Modelled from the spec: parsing the produced catalog text back into a
catalog (`JSON.parse` specialized to the catalog schema, requiring the whole
input to be consumed up to trailing whitespace). -/
def parseXcstrings (s : String) : Option XCStrings :=
  match pCatalog s.length s.data with
  | some (c, rest) => if (skipWs rest).isEmpty then some c else none
  | none => none

/-- One present optional field of an entry, used to relate the entry printer
and the member-dispatching entry parser. -/
inductive EField
  | cm (s : String)
  | ex (s : String)
  | st (b : Bool)
  | lc (l : List (String × Localization))
deriving DecidableEq, Repr

/-- The printed member for one field. -/
def fieldKV (sp : List Char) (d : Nat) : EField → String × List Char
  | .cm s => ("comment", strL s)
  | .ex s => ("extractionState", strL s)
  | .st b => ("shouldTranslate", boolL b)
  | .lc l => ("localizations", printLocsL sp (d + 1) l)

/-- Set one parsed field on an entry. -/
def applyField (e : StringEntry) : EField → StringEntry
  | .cm s => { e with comment := some s }
  | .ex s => { e with extractionState := some s }
  | .st b => { e with shouldTranslate := some b }
  | .lc l => { e with localizations := some l }

/-- The present fields of an entry, in printed order. -/
def fieldsOf (e : StringEntry) : List EField :=
  (e.comment.map EField.cm).toList ++
    ((e.extractionState.map EField.ex).toList ++
      ((e.shouldTranslate.map EField.st).toList ++
        (e.localizations.map EField.lc).toList))

/-- Parser fuel consumed by one field (a `localizations` field loops over
its members). -/
def fieldCost : EField → Nat
  | .lc l => 1 + l.length
  | _ => 1

/-- Parser fuel consumed by a field list. -/
def fieldsCost (fs : List EField) : Nat := (fs.map fieldCost).sum

/-- Parser fuel consumed by a `strings` map. -/
def stringsCost (strs : List (String × StringEntry)) : Nat :=
  (strs.map (fun p => 1 + fieldsCost (fieldsOf p.2))).sum

end IosVibeLocalizer

namespace IosVibeLocalizer

/-! ## Association-list lemmas -/

theorem lookupA_nil {α : Type} (k : String) : lookupA ([] : List (String × α)) k = none := rfl

theorem lookupA_cons {α : Type} (k' k : String) (v : α) (t : List (String × α)) :
    lookupA ((k', v) :: t) k = if k' == k then some v else lookupA t k := by
  simp only [lookupA, List.find?_cons]
  by_cases h : k' == k <;> simp [h]

theorem lookupA_eq_none_iff {α : Type} (l : List (String × α)) (k : String) :
    lookupA l k = none ↔ k ∉ l.map Prod.fst := by
  induction l with
  | nil => simp [lookupA]
  | cons p t ih =>
    rcases p with ⟨k', v⟩
    rw [lookupA_cons]
    by_cases h : k' = k
    · subst h; simp
    · have hb : (k' == k) = false := beq_eq_false_iff_ne.mpr h
      rw [hb, if_neg (by simp)]
      simp only [ih, List.map_cons, List.mem_cons]
      constructor
      · intro hk hc
        rcases hc with hc | hc
        · exact h hc.symm
        · exact hk hc
      · intro hk hc
        exact hk (Or.inr hc)

theorem entry_unique {α : Type} {l : List (String × α)} {k : String} {a b : α}
    (hnd : (l.map Prod.fst).Nodup) (ha : (k, a) ∈ l) (hb : (k, b) ∈ l) : a = b := by
  induction l with
  | nil => cases ha
  | cons p t ih =>
    simp only [List.map_cons, List.nodup_cons] at hnd
    rcases List.mem_cons.mp ha with h1 | h1 <;>
      rcases List.mem_cons.mp hb with h2 | h2
    · rw [← h1] at h2; exact congrArg Prod.snd h2.symm
    · exfalso; exact hnd.1 (h1 ▸ (List.mem_map.mpr ⟨(k, b), h2, rfl⟩))
    · exfalso; exact hnd.1 (h2 ▸ (List.mem_map.mpr ⟨(k, a), h1, rfl⟩))
    · exact ih hnd.2 h1 h2

theorem find_entry_of_nodup {α : Type} {l : List (String × α)} {k : String} {e : α}
    (hnd : (l.map Prod.fst).Nodup) (hmem : (k, e) ∈ l) :
    l.find? (fun p => p.1 == k) = some (k, e) := by
  induction l with
  | nil => cases hmem
  | cons p t ih =>
    simp only [List.map_cons, List.nodup_cons] at hnd
    rcases List.mem_cons.mp hmem with h | h
    · subst h; simp [List.find?_cons]
    · have hk : k ∈ t.map Prod.fst := List.mem_map.mpr ⟨(k, e), h, rfl⟩
      have hne : ¬(p.1 == k) := by
        simp only [beq_iff_eq]
        intro hc; exact hnd.1 (hc ▸ hk)
      rw [List.find?_cons]
      simp only [hne, cond_false]
      exact ih hnd.2 h

theorem lookupA_of_nodup {α : Type} {l : List (String × α)} {k : String} {e : α}
    (hnd : (l.map Prod.fst).Nodup) (hmem : (k, e) ∈ l) :
    lookupA l k = some e := by
  simp [lookupA, find_entry_of_nodup hnd hmem]

end IosVibeLocalizer

namespace IosVibeLocalizer

/-! ## Keyed `filterMap` lemmas -/

theorem filter_key_of_not_mem {α β : Type} {l : List (String × α)}
    (f : String × α → Option β) (keyOf : β → String)
    (hf : ∀ p q, f p = some q → keyOf q = p.1) {k : String}
    (hk : k ∉ l.map Prod.fst) :
    (l.filterMap f).filter (fun q => keyOf q == k) = [] := by
  induction l with
  | nil => rfl
  | cons p t ih =>
    simp only [List.map_cons, List.mem_cons, not_or] at hk
    rw [List.filterMap_cons]
    cases hfp : f p with
    | none => exact ih hk.2
    | some q =>
      have hq : (keyOf q == k) = false :=
        beq_eq_false_iff_ne.mpr (by rw [hf p q hfp]; exact fun hc => hk.1 hc.symm)
      rw [List.filter_cons, hq, if_neg (by simp)]
      exact ih hk.2

theorem filter_key_filterMap {α β : Type} {l : List (String × α)}
    (f : String × α → Option β) (keyOf : β → String)
    (hf : ∀ p q, f p = some q → keyOf q = p.1) {k : String} {e : α}
    (hnd : (l.map Prod.fst).Nodup) (hmem : (k, e) ∈ l) :
    (l.filterMap f).filter (fun q => keyOf q == k) = (f (k, e)).toList := by
  induction l with
  | nil => cases hmem
  | cons p t ih =>
    simp only [List.map_cons, List.nodup_cons] at hnd
    rcases List.mem_cons.mp hmem with h | h
    · rw [← h] at hnd ⊢
      rw [List.filterMap_cons]
      cases hfp : f (k, e) with
      | none => rw [Option.toList]; exact filter_key_of_not_mem f keyOf hf hnd.1
      | some q =>
        have hq : (keyOf q == k) = true := by
          simp only [beq_iff_eq]; exact hf _ _ hfp
        rw [List.filter_cons, hq, if_pos rfl, Option.toList,
          filter_key_of_not_mem f keyOf hf hnd.1]
    · have hkt : k ∈ t.map Prod.fst := List.mem_map.mpr ⟨(k, e), h, rfl⟩
      have hne : p.1 ≠ k := fun hc => hnd.1 (hc ▸ hkt)
      rw [List.filterMap_cons]
      cases hfp : f p with
      | none => exact ih hnd.2 h
      | some q =>
        have hq : (keyOf q == k) = false :=
          beq_eq_false_iff_ne.mpr (by rw [hf p q hfp]; exact hne)
        rw [List.filter_cons, hq, if_neg (by simp)]
        exact ih hnd.2 h

theorem lookupA_filterMap_of_not_mem {α β : Type} {l : List (String × α)}
    (f : String × α → Option (String × β))
    (hf : ∀ p q, f p = some q → q.1 = p.1) {k : String}
    (hk : k ∉ l.map Prod.fst) :
    lookupA (l.filterMap f) k = none := by
  rw [lookupA_eq_none_iff]
  intro hc
  rcases List.mem_map.mp hc with ⟨q, hq, hqk⟩
  rcases List.mem_filterMap.mp hq with ⟨p, hp, hfp⟩
  exact hk (List.mem_map.mpr ⟨p, hp, by rw [← hf p q hfp, hqk]⟩)

theorem lookupA_filterMap {α β : Type} {l : List (String × α)}
    (f : String × α → Option (String × β))
    (hf : ∀ p q, f p = some q → q.1 = p.1) {k : String} {e : α}
    (hnd : (l.map Prod.fst).Nodup) (hmem : (k, e) ∈ l) :
    lookupA (l.filterMap f) k = (f (k, e)).map Prod.snd := by
  induction l with
  | nil => cases hmem
  | cons p t ih =>
    simp only [List.map_cons, List.nodup_cons] at hnd
    rcases List.mem_cons.mp hmem with h | h
    · rw [← h] at hnd ⊢
      rw [List.filterMap_cons]
      cases hfp : f (k, e) with
      | none => rw [Option.map_none', lookupA_filterMap_of_not_mem f hf hnd.1]
      | some q =>
        rcases q with ⟨k1, b⟩
        have : k1 = k := hf _ _ hfp
        subst this
        rw [lookupA_cons, if_pos (by simp), Option.map_some']
    · have hkt : k ∈ t.map Prod.fst := List.mem_map.mpr ⟨(k, e), h, rfl⟩
      have hne : p.1 ≠ k := fun hc => hnd.1 (hc ▸ hkt)
      rw [List.filterMap_cons]
      cases hfp : f p with
      | none => exact ih hnd.2 h
      | some q =>
        rw [lookupA_cons, if_neg (by simp [hf p q hfp, hne]), ih hnd.2 h]

theorem lookupA_map_mem {α : Type} (needed : List String) (g : String → α)
    {lang : String} (h : lang ∈ needed) :
    lookupA (needed.map (fun x => (x, g x))) lang = some (g lang) := by
  induction needed with
  | nil => cases h
  | cons x t ih =>
    rw [List.map_cons, lookupA_cons]
    by_cases hx : x = lang
    · subst hx; simp
    · rw [if_neg (by simp [hx])]
      exact ih ((List.mem_cons.mp h).resolve_left (fun hc => hx hc.symm))

end IosVibeLocalizer

namespace IosVibeLocalizer

/-! ## Claim theorems: reconciliation -/

/-- C1: for a non-stale entry not marked `shouldTranslate === false`, the
analyzer emits at most one request for its key; that request exists exactly
when some target language is needed, and its `targetLanguages` are exactly
the target languages (in requested order, hence a sublist of the input
list) for which the entry has no `localizations` map, no localization for
that language, a localization without `stringUnit`, or a unit whose value
is the empty string.  Languages already satisfied never appear. -/
theorem analyze_requests_exact (c : XCStrings) (L : List String) (k : String)
    (e : StringEntry) (hmem : (k, e) ∈ c.strings)
    (hnd : (c.strings.map Prod.fst).Nodup)
    (hstale : isStale e = false) (hskip : isSkipped e = false) :
    ((analyzeStringsForTranslation c L).translationRequests.filter
        (fun r => r.key == k)) =
      (if (neededLangs L e).isEmpty then []
       else [{ key := k, text := k, targetLanguages := neededLangs L e,
               comment := e.comment }]) ∧
    (∀ lang, lang ∈ neededLangs L e ↔
      (lang ∈ L ∧ needsTranslation e lang = true)) ∧
    (neededLangs L e).Sublist L ∧
    (∀ lang, needsTranslation e lang = true ↔
      (e.localizations = none ∨ ∃ locs, e.localizations = some locs ∧
        (lookupA locs lang = none ∨ ∃ loc, lookupA locs lang = some loc ∧
          (loc.stringUnit = none ∨ ∃ u, loc.stringUnit = some u ∧
            u.value = "")))) := by
  refine ⟨?_, ?_, ?_, ?_⟩
  · have h := filter_key_filterMap
      (fun p =>
        if isStale p.2 || isSkipped p.2 then none
        else
          let needed := neededLangs L p.2
          if needed.isEmpty then none
          else some { key := p.1, text := p.1, targetLanguages := needed,
                      comment := p.2.comment })
      TranslationRequest.key
      (by
        intro p q hq
        simp only at hq
        split at hq
        · cases hq
        · split at hq
          · cases hq
          · cases hq; rfl)
      hnd hmem
    simp only [analyzeStringsForTranslation]
    rw [h]
    by_cases hne : (neededLangs L e).isEmpty
    · simp [hstale, hskip, hne]
    · simp [hstale, hskip, hne]
  · intro lang
    simp [neededLangs, List.mem_filter]
  · exact List.filter_sublist L
  · intro lang
    cases he : e.localizations with
    | none => simp [needsTranslation, he]
    | some locs =>
      cases hl : lookupA locs lang with
      | none => simp [needsTranslation, he, hl]
      | some loc =>
        cases hu : loc.stringUnit with
        | none => simp [needsTranslation, he, hl, hu]
        | some u => simp [needsTranslation, he, hl, hu]

end IosVibeLocalizer

namespace IosVibeLocalizer

/-- C1 witness: in the spec's end-to-end catalog with targets `es, fr`, the
partially localized key `bye` yields exactly the request for `fr`. -/
theorem analyze_requests_exact_witness :
    ((analyzeStringsForTranslation sampleCatalog ["es", "fr"]).translationRequests.filter
        (fun r => r.key == "bye")) =
      [{ key := "bye", text := "bye", targetLanguages := ["fr"], comment := none }] :=
  ((analyze_requests_exact sampleCatalog ["es", "fr"] "bye"
      { emptyEntry with localizations := some [("es", sampleTr "Adios")] }
      (by decide) (by decide) (by decide) (by decide)).1).trans (by decide)

/-- C3: a stale entry is removed from the working catalog, its key is
recorded in `staleRemoved`, and no request is emitted for it, whatever its
localization state. -/
theorem analyze_stale_removes (c : XCStrings) (L : List String) (k : String)
    (e : StringEntry) (hmem : (k, e) ∈ c.strings)
    (hnd : (c.strings.map Prod.fst).Nodup) (hstale : isStale e = true) :
    lookupA (analyzeStringsForTranslation c L).modifiedXcstringsData.strings k = none ∧
    k ∈ (analyzeStringsForTranslation c L).staleRemoved ∧
    (∀ r ∈ (analyzeStringsForTranslation c L).translationRequests, r.key ≠ k) := by
  refine ⟨?_, ?_, ?_⟩
  · rw [lookupA_eq_none_iff]
    intro hk
    simp only [analyzeStringsForTranslation, List.map_map] at hk
    rcases List.mem_map.mp hk with ⟨p, hp, hpk⟩
    have hpf := List.mem_filter.mp hp
    simp only [Function.comp] at hpk
    have hpe : p.2 = e := by
      have : (k, p.2) ∈ c.strings := by
        rcases p with ⟨k1, e1⟩
        simp only at hpk
        rw [← hpk]; exact hpf.1
      exact entry_unique hnd this hmem
    have := hpf.2
    rw [hpe, hstale] at this
    simp at this
  · exact List.mem_filterMap.mpr ⟨(k, e), hmem, by simp [hstale]⟩
  · intro r hr hrk
    simp only [analyzeStringsForTranslation] at hr
    rcases List.mem_filterMap.mp hr with ⟨p, hp, hfp⟩
    have hkey : r.key = p.1 := by
      split at hfp
      · cases hfp
      · split at hfp
        · cases hfp
        · cases hfp; rfl
    have hpe : p.2 = e := by
      have : (k, p.2) ∈ c.strings := by
        rcases p with ⟨k1, e1⟩
        simp only at hkey
        rw [← hkey, hrk] at hp ⊢
        exact hp
      exact entry_unique hnd this hmem
    split at hfp
    · cases hfp
    · rename_i hcond
      rw [hpe, hstale] at hcond
      simp at hcond

/-- C3 witness: the stale key `old` of the sample catalog is removed and
recorded. -/
theorem analyze_stale_removes_witness :
    lookupA (analyzeStringsForTranslation sampleCatalog ["es", "fr"]).modifiedXcstringsData.strings
        "old" = none ∧
    "old" ∈ (analyzeStringsForTranslation sampleCatalog ["es", "fr"]).staleRemoved := by
  have h := analyze_stale_removes sampleCatalog ["es", "fr"] "old"
    { emptyEntry with extractionState := some "stale" }
    (by decide) (by decide) (by decide)
  exact ⟨h.1, h.2.1⟩

end IosVibeLocalizer

namespace IosVibeLocalizer

/-- C4 counterexample: an entry marked both `extractionState: "stale"` and
`shouldTranslate: false` is *not* copied into the working catalog verbatim
— the stale branch runs first and removes it. -/
theorem skip_verbatim_counterexample :
    staleSkipEntry.shouldTranslate = some false ∧
    lookupA staleSkipCatalog.strings "dbg" = some staleSkipEntry ∧
    lookupA (analyzeStringsForTranslation staleSkipCatalog ["es"]).modifiedXcstringsData.strings
        "dbg" = none := by
  refine ⟨rfl, rfl, rfl⟩

/-- C4 (amended): an entry with `shouldTranslate === false` never produces a
request, for every target-language list and localization state; if it is
additionally not stale, it is copied into the working catalog verbatim. -/
theorem analyze_skip_never_requested (c : XCStrings) (L : List String)
    (k : String) (e : StringEntry) (hmem : (k, e) ∈ c.strings)
    (hnd : (c.strings.map Prod.fst).Nodup) (hskip : isSkipped e = true) :
    (∀ r ∈ (analyzeStringsForTranslation c L).translationRequests, r.key ≠ k) ∧
    (isStale e = false →
      lookupA (analyzeStringsForTranslation c L).modifiedXcstringsData.strings k
        = some e) := by
  constructor
  · intro r hr hrk
    simp only [analyzeStringsForTranslation] at hr
    rcases List.mem_filterMap.mp hr with ⟨p, hp, hfp⟩
    have hkey : r.key = p.1 := by
      split at hfp
      · cases hfp
      · split at hfp
        · cases hfp
        · cases hfp; rfl
    have hpe : p.2 = e := by
      have : (k, p.2) ∈ c.strings := by
        rcases p with ⟨k1, e1⟩
        simp only at hkey
        rw [← hkey, hrk] at hp ⊢
        exact hp
      exact entry_unique hnd this hmem
    split at hfp
    · cases hfp
    · rename_i hcond
      rw [hpe, hskip] at hcond
      simp at hcond
  · intro hstale
    simp only [analyzeStringsForTranslation]
    have hwnd : (((c.strings.filter (fun p => !isStale p.2)).map
        (fun p => (p.1, materializeEntry p.2
          (if isSkipped p.2 then [] else neededLangs L p.2)))).map Prod.fst).Nodup := by
      rw [List.map_map]
      have : (Prod.fst ∘ fun p : String × StringEntry =>
          (p.1, materializeEntry p.2 (if isSkipped p.2 then [] else neededLangs L p.2)))
          = Prod.fst := rfl
      rw [this]
      exact hnd.sublist ((List.filter_sublist c.strings).map Prod.fst)
    have hwmem : (k, e) ∈ (c.strings.filter (fun p => !isStale p.2)).map
        (fun p => (p.1, materializeEntry p.2
          (if isSkipped p.2 then [] else neededLangs L p.2))) := by
      refine List.mem_map.mpr ⟨(k, e), List.mem_filter.mpr ⟨hmem, by simp [hstale]⟩, ?_⟩
      simp only [hskip, if_pos]
      rw [materializeEntry]
      simp
    exact lookupA_of_nodup hwnd hwmem

/-- C4 witness: a non-stale `shouldTranslate === false` entry survives
verbatim and yields no request. -/
theorem analyze_skip_never_requested_witness :
    (∀ r ∈ (analyzeStringsForTranslation skipOnlyCatalog ["es"]).translationRequests,
      r.key ≠ "dbg2") ∧
    lookupA (analyzeStringsForTranslation skipOnlyCatalog ["es"]).modifiedXcstringsData.strings
        "dbg2" = some { emptyEntry with shouldTranslate := some false } := by
  have h := analyze_skip_never_requested skipOnlyCatalog ["es"] "dbg2"
    { emptyEntry with shouldTranslate := some false }
    (by decide) (by decide) (by decide)
  exact ⟨h.1, h.2 (by decide)⟩

end IosVibeLocalizer

namespace IosVibeLocalizer

/-- The analyzer's trace entry for a non-stale, non-skipped entry with at
least one needed language. -/
theorem analyze_trace_lookup (c : XCStrings) (L : List String) (k : String)
    (e : StringEntry) (hmem : (k, e) ∈ c.strings)
    (hnd : (c.strings.map Prod.fst).Nodup)
    (hstale : isStale e = false) (hskip : isSkipped e = false)
    (hne : (neededLangs L e).isEmpty = false) :
    lookupA (analyzeStringsForTranslation c L).stringTranslationMap k =
      some { languages := neededLangs L e,
             isNew := (neededLangs L e).map (fun lang => (lang, isNewForLang e lang)) } := by
  have h := lookupA_filterMap
    (fun p =>
      if isStale p.2 || isSkipped p.2 then none
      else
        let needed := neededLangs L p.2
        if needed.isEmpty then none
        else some (p.1,
          ({ languages := needed,
             isNew := needed.map (fun lang => (lang, isNewForLang p.2 lang)) } :
            TraceEntry)))
    (by
      intro p q hq
      simp only at hq
      split at hq
      · cases hq
      · split at hq
        · cases hq
        · cases hq; rfl)
    hnd hmem
  simp only [analyzeStringsForTranslation]
  rw [h]
  simp [hstale, hskip, hne]

/-- C5: for a requested (key, language) pair, merging a provider result
writes the value and classifies the change as `added` exactly when the
language had no localization entry at all before the pass, else as
`updated`; the change string is `key ++ " (" ++ lang ++ ")"`. -/
theorem merge_added_updated (c : XCStrings) (L : List String) (k : String)
    (e : StringEntry) (lang v : String)
    (hmem : (k, e) ∈ c.strings) (hnd : (c.strings.map Prod.fst).Nodup)
    (hstale : isStale e = false) (hskip : isSkipped e = false)
    (hlang : lang ∈ L) (hneed : needsTranslation e lang = true) :
    (applyTranslations (analyzeStringsForTranslation c L).modifiedXcstringsData
        (analyzeStringsForTranslation c L).stringTranslationMap
        { translations := [{ key := k, translations := [(lang, v)] }] }).added =
      (if isNewForLang e lang then [k ++ " (" ++ lang ++ ")"] else []) ∧
    (applyTranslations (analyzeStringsForTranslation c L).modifiedXcstringsData
        (analyzeStringsForTranslation c L).stringTranslationMap
        { translations := [{ key := k, translations := [(lang, v)] }] }).updated =
      (if isNewForLang e lang then [] else [k ++ " (" ++ lang ++ ")"]) ∧
    (isNewForLang e lang = true ↔
      (e.localizations = none ∨
        ∃ locs, e.localizations = some locs ∧ lookupA locs lang = none)) := by
  have hmemneed : lang ∈ neededLangs L e :=
    List.mem_filter.mpr ⟨hlang, hneed⟩
  have hne : (neededLangs L e).isEmpty = false := by
    cases hq : neededLangs L e with
    | nil => rw [hq] at hmemneed; cases hmemneed
    | cons a t => simp
  have htr := analyze_trace_lookup c L k e hmem hnd hstale hskip hne
  have hcont : (neededLangs L e).contains lang = true :=
    List.elem_eq_true_of_mem hmemneed
  have hnew : lookupA ((neededLangs L e).map (fun x => (x, isNewForLang e x))) lang
      = some (isNewForLang e lang) :=
    lookupA_map_mem (neededLangs L e) (fun x => isNewForLang e x) hmemneed
  have hiff : isNewForLang e lang = true ↔
      (e.localizations = none ∨
        ∃ locs, e.localizations = some locs ∧ lookupA locs lang = none) := by
    cases he : e.localizations with
    | none => simp [isNewForLang, he]
    | some locs => simp [isNewForLang, he, Option.isNone_iff_eq_none]
  refine ⟨?_, ?_, hiff⟩ <;>
  · simp only [applyTranslations, List.foldl_cons, List.foldl_nil, mergeStep,
      scopedPairs, htr]
    simp only [List.filter_cons, hcont, if_pos rfl, List.filter_nil,
      List.foldl_cons, List.foldl_nil]
    cases hb : isNewForLang e lang <;>
      simp [mergePair, htr, hnew, hb, changeKey]

end IosVibeLocalizer

namespace IosVibeLocalizer

/-- C5 witness: merging `Hola` for the fresh key `hi` of the sample catalog
classifies the change as added, formatted `hi (es)`. -/
theorem merge_added_updated_witness :
    (applyTranslations
        (analyzeStringsForTranslation sampleCatalog ["es", "fr"]).modifiedXcstringsData
        (analyzeStringsForTranslation sampleCatalog ["es", "fr"]).stringTranslationMap
        { translations := [{ key := "hi", translations := [("es", "Hola")] }] }).added =
      ["hi (es)"] :=
  ((merge_added_updated sampleCatalog ["es", "fr"] "hi" emptyEntry "es" "Hola"
      (by decide) (by decide) (by decide) (by decide) (by decide) (by decide)).1).trans
    (by decide)

/-- C7 counterexample: with an empty target-language list, a catalog holding
a stale entry still comes back with `modified = true` (the stale removal is
itself a catalog change), contradicting "modified=false regardless of the
catalog's content". -/
theorem analyze_empty_targets_counterexample :
    (analyzeStringsForTranslation staleOnlyCatalog []).translationRequests = [] ∧
    (analyzeStringsForTranslation staleOnlyCatalog []).stringTranslationMap = [] ∧
    (analyzeStringsForTranslation staleOnlyCatalog []).xcstringsModified = true := by
  refine ⟨rfl, rfl, rfl⟩

/-- C7 (amended): an empty target list always yields zero requests and an
empty trace map, and the modified flag then reduces to whether any stale
entry was removed (false exactly on stale-free catalogs). -/
theorem analyze_empty_targets (c : XCStrings) :
    (analyzeStringsForTranslation c []).translationRequests = [] ∧
    (analyzeStringsForTranslation c []).stringTranslationMap = [] ∧
    (analyzeStringsForTranslation c []).xcstringsModified =
      !(analyzeStringsForTranslation c []).staleRemoved.isEmpty := by
  have hreq : (analyzeStringsForTranslation c []).translationRequests = [] := by
    simp only [analyzeStringsForTranslation]
    rw [List.filterMap_eq_nil_iff]
    intro p hp
    cases hs : isStale p.2 || isSkipped p.2 <;> simp [hs, neededLangs]
  have htrc : (analyzeStringsForTranslation c []).stringTranslationMap = [] := by
    simp only [analyzeStringsForTranslation]
    rw [List.filterMap_eq_nil_iff]
    intro p hp
    cases hs : isStale p.2 || isSkipped p.2 <;> simp [hs, neededLangs]
  refine ⟨hreq, htrc, ?_⟩
  simp only [analyzeStringsForTranslation] at hreq ⊢
  rw [hreq]
  simp

/-- C8: the merger is invariant under pre-filtering the provider response
down to known keys and in-scope languages: results for keys with no trace
entry and languages outside a trace's scope contribute nothing, while all
other results are still processed. -/
theorem applyTranslations_filter_response (working : XCStrings)
    (trace : List (String × TraceEntry)) (resp : BatchTranslationResponse) :
    applyTranslations working trace resp =
      applyTranslations working trace (filterResponse trace resp) := by
  rcases resp with ⟨ts⟩
  simp only [applyTranslations, filterResponse]
  generalize ({ finalCatalog := working, added := [], updated := [] } : MergeResult) = acc
  induction ts generalizing acc with
  | nil => rfl
  | cons r ts ih =>
    cases hlk : lookupA trace r.key with
    | none =>
      have hstep : mergeStep trace acc r = acc := by
        simp [mergeStep, scopedPairs, hlk]
      rw [List.foldl_cons, hstep, List.filter_cons,
        if_neg (by simp [hlk])]
      exact ih acc
    | some te =>
      have hmod : mergeStep trace acc { r with translations := scopedPairs trace r }
          = mergeStep trace acc r := by
        simp only [mergeStep, scopedPairs, hlk]
        rw [List.filter_filter]
        simp
      rw [List.foldl_cons, List.filter_cons, if_pos (by simp [hlk]),
        List.map_cons, List.foldl_cons, hmod]
      exact ih (mergeStep trace acc r)

end IosVibeLocalizer

namespace IosVibeLocalizer

/-- C10: when the scan loop found no (key, language) pair needing
translation, the tail of `run()` performs no side effect at all: no file
write, no branch, no commit, no push, no pull request. -/
theorem run_no_changes_no_effects (c : XCStrings) (L : List String)
    (path : String) (h : scanNeedsAny c L = false) :
    runSideEffects c L path = [] := by
  simp [runSideEffects, h]

/-- C10 witness: a fully translated single-entry catalog triggers no side
effect. -/
theorem run_no_changes_no_effects_witness :
    runSideEffects
      { sourceLanguage := "en", version := "1.0",
        strings := [("k", { emptyEntry with localizations := some [("es", sampleTr "Hola")] })] }
      ["es"] "Localizable.xcstrings" = [] :=
  run_no_changes_no_effects _ _ _ (by decide)

end IosVibeLocalizer

namespace IosVibeLocalizer

/-! ## Key-colon transform lemmas -/

theorem addKS_false_cons (c : Char) (rest : List Char) (h : c ≠ qc) :
    addKS false (c :: rest) = c :: addKS false rest := by
  simp [addKS, h]

theorem addKS_false_nq (w : List Char) (hw : ∀ c ∈ w, c ≠ qc) (rest : List Char) :
    addKS false (w ++ rest) = w ++ addKS false rest := by
  induction w with
  | nil => simp
  | cons c t ih =>
    rw [List.cons_append, addKS_false_cons c _ (hw c (List.mem_cons_self c t)),
      ih (fun x hx => hw x (List.mem_cons_of_mem c hx))]
    rfl

theorem addKS_true_plain (c : Char) (h1 : c ≠ '\\') (h2 : c ≠ qc)
    (rest : List Char) : addKS true (c :: rest) = c :: addKS true rest := by
  cases rest with
  | nil => simp [addKS]
  | cons d r => simp [addKS, h1, h2]

theorem addKS_true_pair (d : Char) (rest : List Char) :
    addKS true ('\\' :: d :: rest) = '\\' :: d :: addKS true rest := by
  simp [addKS]

theorem hexDigit_ne (n : Nat) (h : n < 16) :
    hexDigit n ≠ '\\' ∧ hexDigit n ≠ qc := by
  interval_cases n <;> exact ⟨by decide, by decide⟩

theorem addKS_true_escapeChar (c : Char) (rest : List Char) :
    addKS true (escapeChar c ++ rest) = escapeChar c ++ addKS true rest := by
  simp only [escapeChar]
  split_ifs with h1 h2 h3 h4 h5 h6 h7 h8
  · exact addKS_true_pair qc rest
  · exact addKS_true_pair '\\' rest
  · exact addKS_true_pair 'b' rest
  · exact addKS_true_pair 't' rest
  · exact addKS_true_pair 'n' rest
  · exact addKS_true_pair 'f' rest
  · exact addKS_true_pair 'r' rest
  · have hq : c.toNat / 16 < 16 := by omega
    have hr : c.toNat % 16 < 16 := Nat.mod_lt _ (by omega)
    have hdq := hexDigit_ne _ hq
    have hdr := hexDigit_ne _ hr
    rw [List.cons_append, List.cons_append, List.cons_append, List.cons_append,
      List.cons_append, List.cons_append, List.nil_append,
      addKS_true_pair, addKS_true_plain '0' (by decide) (by decide),
      addKS_true_plain '0' (by decide) (by decide),
      addKS_true_plain _ hdq.1 hdq.2, addKS_true_plain _ hdr.1 hdr.2]
    rfl
  · rw [List.cons_append, List.nil_append, addKS_true_plain c h2 h1]
    rfl

theorem addKS_true_escapeString (s : String) (rest : List Char) :
    addKS true (escapeString s ++ rest) = escapeString s ++ addKS true rest := by
  rw [escapeString]
  induction s.data with
  | nil => simp
  | cons c t ih =>
    rw [List.flatMap_cons, List.append_assoc, addKS_true_escapeChar, ih]
    rw [List.append_assoc]

theorem addKS_strL_colon (s : String) (rest : List Char) :
    addKS false (strL s ++ (':' :: rest)) =
      strL s ++ (' ' :: ':' :: addKS false rest) := by
  rw [strL, List.cons_append, List.append_assoc]
  rw [show addKS false (qc :: (escapeString s ++ ([qc] ++ ':' :: rest)))
      = qc :: addKS true (escapeString s ++ ([qc] ++ ':' :: rest)) by simp [addKS]]
  rw [addKS_true_escapeString]
  rw [show addKS true ([qc] ++ ':' :: rest) = qc :: ' ' :: ':' :: addKS false rest by
    simp [addKS, show qc ≠ '\\' by decide]]
  simp

theorem addKS_strL (s : String) (rest : List Char) (h : rest.head? ≠ some ':') :
    addKS false (strL s ++ rest) = strL s ++ addKS false rest := by
  rw [strL, List.cons_append, List.append_assoc]
  rw [show addKS false (qc :: (escapeString s ++ ([qc] ++ rest)))
      = qc :: addKS true (escapeString s ++ ([qc] ++ rest)) by simp [addKS]]
  rw [addKS_true_escapeString]
  have hq : addKS true ([qc] ++ rest) = qc :: addKS false rest := by
    cases rest with
    | nil => simp [addKS]
    | cons d r =>
      have hd : d ≠ ':' := by
        intro hc; rw [hc] at h; simp at h
      simp [addKS, show qc ≠ '\\' by decide, hd]
  rw [hq]
  simp

theorem strL_passes (s : String) : PassesKS (strL s) (strL s) :=
  fun rest h => addKS_strL s rest h

theorem boolL_passes (b : Bool) : PassesKS (boolL b) (boolL b) := by
  intro rest h
  cases b <;>
    exact addKS_false_nq _ (by intro c hc; fin_cases hc <;> decide) rest

end IosVibeLocalizer

namespace IosVibeLocalizer

theorem indentL_ne_q (d : Nat) : ∀ c ∈ indentL d, c ≠ qc := by
  intro c hc
  rw [indentL] at hc
  rw [List.eq_of_mem_replicate hc]
  decide

theorem head_cons_ne_colon {c : Char} (hc : c ≠ ':') (l : List Char) :
    (c :: l).head? ≠ some ':' := by simp [hc]

/-- The item relation for the transform: equal keys and values related by
`PassesKS`. -/
theorem addKS_printItems {kvs0 kvs1 : List (String × List Char)}
    (hrel : List.Forall₂ (fun a b => a.1 = b.1 ∧ PassesKS a.2 b.2) kvs0 kvs1)
    (ind : List Char) (hind : ∀ c ∈ ind, c ≠ qc) :
    ∀ rest, rest.head? ≠ some ':' →
      addKS false (printItemsL ind [] kvs0 ++ rest) =
        printItemsL ind [' '] kvs1 ++ addKS false rest := by
  induction kvs0 generalizing kvs1 with
  | nil =>
    cases hrel
    intro rest h
    simp [printItemsL]
  | cons kv0 t0 ih =>
    cases hrel with
    | cons hab hrel =>
      rename_i kv1 t1
      cases t0 with
      | nil =>
        cases hrel
        intro rest h
        rw [printItemsL, printItemsL]
        simp only [List.append_assoc, List.cons_append, List.nil_append]
        rw [addKS_false_nq ind hind]
        rw [addKS_strL_colon]
        rw [addKS_false_cons ' ' _ (by decide)]
        rw [hab.2 rest h, hab.1]
      | cons kv0b t0b =>
        cases hrel with
        | cons hab2 hrel2 =>
          rename_i kv1b t1b
          intro rest h
          rw [show printItemsL ind [] (kv0 :: kv0b :: t0b)
              = (ind ++ (strL kv0.1 ++ ([] ++ (':' :: ' ' :: kv0.2)))) ++
                (',' :: nlc :: printItemsL ind [] (kv0b :: t0b)) from rfl]
          rw [show printItemsL ind [' '] (kv1 :: kv1b :: t1b)
              = (ind ++ (strL kv1.1 ++ ([' '] ++ (':' :: ' ' :: kv1.2)))) ++
                (',' :: nlc :: printItemsL ind [' '] (kv1b :: t1b)) from rfl]
          simp only [List.append_assoc, List.cons_append, List.nil_append]
          rw [addKS_false_nq ind hind]
          rw [addKS_strL_colon]
          rw [addKS_false_cons ' ' _ (by decide)]
          rw [hab.2 _ (head_cons_ne_colon (by decide) _)]
          rw [addKS_false_cons ',' _ (by decide), addKS_false_cons nlc _ (by decide)]
          rw [ih (List.Forall₂.cons hab2 hrel2) rest h, hab.1]

theorem addKS_printObj {kvs0 kvs1 : List (String × List Char)} (d : Nat)
    (hrel : List.Forall₂ (fun a b => a.1 = b.1 ∧ PassesKS a.2 b.2) kvs0 kvs1) :
    PassesKS (printObjL d [] kvs0) (printObjL d [' '] kvs1) := by
  intro rest h
  cases kvs0 with
  | nil =>
    cases hrel
    rw [printObjL, printObjL]
    simp only [List.isEmpty_nil, if_pos rfl]
    exact addKS_false_nq [lbc, rbc] (by intro c hc; fin_cases hc <;> decide) rest
  | cons kv0 t0 =>
    cases hrel with
    | cons hab hrel =>
      rename_i kv1 t1
      rw [show printObjL d [] (kv0 :: t0)
          = lbc :: nlc :: (printItemsL (indentL (d + 1)) [] (kv0 :: t0) ++
            (nlc :: (indentL d ++ [rbc]))) from rfl]
      rw [show printObjL d [' '] (kv1 :: t1)
          = lbc :: nlc :: (printItemsL (indentL (d + 1)) [' '] (kv1 :: t1) ++
            (nlc :: (indentL d ++ [rbc]))) from rfl]
      simp only [List.append_assoc, List.cons_append, List.nil_append]
      rw [addKS_false_cons lbc _ (by decide), addKS_false_cons nlc _ (by decide)]
      rw [addKS_printItems (List.Forall₂.cons hab hrel) _ (indentL_ne_q (d + 1)) _
        (head_cons_ne_colon (by decide) _)]
      rw [addKS_false_cons nlc _ (by decide),
        addKS_false_nq (indentL d) (indentL_ne_q d),
        addKS_false_cons rbc _ (by decide)]

end IosVibeLocalizer
namespace IosVibeLocalizer

theorem forall2_keyed_map {α : Type} (l : List α) (key : α → String)
    (f g : α → List Char) (h : ∀ x ∈ l, PassesKS (f x) (g x)) :
    List.Forall₂ (fun a b => a.1 = b.1 ∧ PassesKS a.2 b.2)
      (l.map (fun x => (key x, f x))) (l.map (fun x => (key x, g x))) := by
  induction l with
  | nil => exact List.Forall₂.nil
  | cons x t ih =>
    exact List.Forall₂.cons ⟨rfl, h x (List.mem_cons_self x t)⟩
      (ih (fun y hy => h y (List.mem_cons_of_mem x hy)))

theorem forall2_keyed_opt {α : Type} (o : Option α) (key : α → String)
    (f g : α → List Char) (h : ∀ x, PassesKS (f x) (g x)) :
    List.Forall₂ (fun a b => a.1 = b.1 ∧ PassesKS a.2 b.2)
      ((o.map (fun x => (key x, f x))).toList)
      ((o.map (fun x => (key x, g x))).toList) := by
  cases o with
  | none => exact List.Forall₂.nil
  | some x => exact List.Forall₂.cons ⟨rfl, h x⟩ List.Forall₂.nil

theorem printUnit_passes (d : Nat) (u : StringUnit) :
    PassesKS (printUnitL [] d u) (printUnitL [' '] d u) := by
  rw [printUnitL, printUnitL]
  exact addKS_printObj d
    (List.Forall₂.cons ⟨rfl, strL_passes _⟩
      (List.Forall₂.cons ⟨rfl, strL_passes _⟩ List.Forall₂.nil))

theorem printLoc_passes (d : Nat) (loc : Localization) :
    PassesKS (printLocL [] d loc) (printLocL [' '] d loc) := by
  rw [printLocL, printLocL]
  exact addKS_printObj d
    (forall2_keyed_opt loc.stringUnit (fun _ => "stringUnit") _ _
      (fun u => printUnit_passes (d + 1) u))

theorem printLocs_passes (d : Nat) (locs : List (String × Localization)) :
    PassesKS (printLocsL [] d locs) (printLocsL [' '] d locs) := by
  rw [printLocsL, printLocsL]
  exact addKS_printObj d
    (forall2_keyed_map locs Prod.fst _ _ (fun p _ => printLoc_passes (d + 1) p.2))

theorem printEntry_passes (d : Nat) (e : StringEntry) :
    PassesKS (printEntryL [] d e) (printEntryL [' '] d e) := by
  rw [printEntryL, printEntryL]
  exact addKS_printObj d
    (List.rel_append
      (forall2_keyed_opt e.comment (fun _ => "comment") _ _ (fun s => strL_passes s))
      (List.rel_append
        (forall2_keyed_opt e.extractionState (fun _ => "extractionState") _ _
          (fun s => strL_passes s))
        (List.rel_append
          (forall2_keyed_opt e.shouldTranslate (fun _ => "shouldTranslate") _ _
            (fun b => boolL_passes b))
          (forall2_keyed_opt e.localizations (fun _ => "localizations") _ _
            (fun locs => printLocs_passes (d + 1) locs)))))

theorem printCatalog_passes (c : XCStrings) :
    PassesKS (printCatalogL [] c) (printCatalogL [' '] c) := by
  rw [printCatalogL, printCatalogL]
  exact addKS_printObj 0
    (List.Forall₂.cons ⟨rfl, strL_passes _⟩
      (List.Forall₂.cons ⟨rfl, strL_passes _⟩
        (List.Forall₂.cons
          ⟨rfl, addKS_printObj 1
            (forall2_keyed_map c.strings Prod.fst _ _
              (fun p _ => printEntry_passes 2 p.2))⟩
          List.Forall₂.nil)))

/-- C6: the Xcode-style serializer output equals the plain 2-space
`JSON.stringify` output transformed by inserting exactly one space before
every key-terminating colon (a colon directly following a string literal's
closing quote); colons inside string literals are untouched by the
transform's string-state tracking. -/
theorem formatXcstrings_eq_spaced_stringify (c : XCStrings) :
    formatXcstringsJson c = addSpaceBeforeKeyColons (stringifyXcstrings c) := by
  have h := printCatalog_passes c [] (by simp)
  simp only [List.append_nil] at h
  rw [formatXcstringsJson, addSpaceBeforeKeyColons, stringifyXcstrings]
  have hdata : (String.mk (printCatalogL [] c)).data = printCatalogL [] c := rfl
  rw [hdata, h]
  have : addKS false ([] : List Char) = [] := rfl
  rw [this, List.append_nil]

end IosVibeLocalizer

namespace IosVibeLocalizer

/-! ## Parser round-trip: token-level lemmas -/

theorem skipWs_sp (r : List Char) : skipWs (' ' :: r) = skipWs r := by
  rw [skipWs]; rw [if_pos (Or.inl rfl)]

theorem skipWs_nl (r : List Char) : skipWs (nlc :: r) = skipWs r := by
  rw [skipWs]; rw [if_pos (Or.inr rfl)]

theorem skipWs_nws {c : Char} (h1 : c ≠ ' ') (h2 : c ≠ nlc) (r : List Char) :
    skipWs (c :: r) = c :: r := by
  rw [skipWs]; rw [if_neg (by simp [h1, h2])]

theorem skipWs_indent (d : Nat) (r : List Char) :
    skipWs (indentL d ++ r) = skipWs r := by
  rw [indentL]
  induction (2 * d) with
  | zero => rfl
  | succ n ih => rw [List.replicate_succ, List.cons_append, skipWs_sp, ih]

theorem expectTok_self (t rest : List Char) : expectTok t (t ++ rest) = some rest := by
  induction t with
  | nil => rfl
  | cons c ts ih => rw [List.cons_append, expectTok]; rw [if_pos rfl, ih]

theorem hexVal_hexDigit (n : Nat) (h : n < 16) : hexVal (hexDigit n) = some n := by
  interval_cases n <;> decide

theorem pStrContent_escQ (X : List Char) :
    pStrContent ('\\' :: qc :: X) =
      (pStrContent X).map (fun r => (qc :: r.1, r.2)) := by
  rw [pStrContent.eq_def]
  simp [qc, nlc, unescape1]

theorem pStrContent_escB (X : List Char) :
    pStrContent ('\\' :: '\\' :: X) =
      (pStrContent X).map (fun r => ('\\' :: r.1, r.2)) := by
  rw [pStrContent.eq_def]
  simp [qc, nlc, unescape1]

theorem pStrContent_esc8 (X : List Char) :
    pStrContent ('\\' :: 'b' :: X) =
      (pStrContent X).map (fun r => (Char.ofNat 8 :: r.1, r.2)) := by
  rw [pStrContent.eq_def]
  simp [qc, nlc, unescape1]

theorem pStrContent_esc9 (X : List Char) :
    pStrContent ('\\' :: 't' :: X) =
      (pStrContent X).map (fun r => (Char.ofNat 9 :: r.1, r.2)) := by
  rw [pStrContent.eq_def]
  simp [qc, nlc, unescape1]

theorem pStrContent_esc10 (X : List Char) :
    pStrContent ('\\' :: 'n' :: X) =
      (pStrContent X).map (fun r => (nlc :: r.1, r.2)) := by
  rw [pStrContent.eq_def]
  simp [qc, nlc, unescape1]

theorem pStrContent_esc12 (X : List Char) :
    pStrContent ('\\' :: 'f' :: X) =
      (pStrContent X).map (fun r => (Char.ofNat 12 :: r.1, r.2)) := by
  rw [pStrContent.eq_def]
  simp [qc, nlc, unescape1]

theorem pStrContent_esc13 (X : List Char) :
    pStrContent ('\\' :: 'r' :: X) =
      (pStrContent X).map (fun r => (Char.ofNat 13 :: r.1, r.2)) := by
  rw [pStrContent.eq_def]
  simp [qc, nlc, unescape1]

theorem pStrContent_u {h1 h2 h3 h4 : Char} {a b c1 d1 : Nat}
    (ha : hexVal h1 = some a) (hb : hexVal h2 = some b)
    (hc : hexVal h3 = some c1) (hd : hexVal h4 = some d1) (X : List Char) :
    pStrContent ('\\' :: 'u' :: h1 :: h2 :: h3 :: h4 :: X) =
      (pStrContent X).map
        (fun r => (Char.ofNat (4096 * a + 256 * b + 16 * c1 + d1) :: r.1, r.2)) := by
  rw [pStrContent.eq_def]
  simp [qc, ha, hb, hc, hd]

theorem pStrContent_plain {c : Char} (hq : c ≠ qc) (hb : c ≠ '\\')
    (hctl : ¬c.toNat < 32) (X : List Char) :
    pStrContent (c :: X) = (pStrContent X).map (fun r => (c :: r.1, r.2)) := by
  have hstep : pStrContent (c :: X) =
      (if c = qc then some ([], X)
       else if c = '\\' then
        (match X with
         | [] => none
         | e :: rest2 =>
           if e = 'u' then
             match rest2 with
             | h1 :: h2 :: h3 :: h4 :: rest3 =>
               match hexVal h1, hexVal h2, hexVal h3, hexVal h4 with
               | some a, some b, some c1, some d1 =>
                 (pStrContent rest3).map
                   (fun r => (Char.ofNat (4096 * a + 256 * b + 16 * c1 + d1) :: r.1, r.2))
               | _, _, _, _ => none
             | _ => none
           else
             match unescape1 e with
             | none => none
             | some u => (pStrContent rest2).map (fun r => (u :: r.1, r.2)))
       else if c.toNat < 32 then none
       else (pStrContent X).map (fun r => (c :: r.1, r.2))) := by
    rw [pStrContent.eq_def]
  rw [hstep, if_neg hq, if_neg hb, if_neg hctl]

theorem pStrContent_escape (cs : List Char) (rest : List Char) :
    pStrContent (cs.flatMap escapeChar ++ (qc :: rest)) =
      (pStrContent (qc :: rest)).map (fun r => (cs ++ r.1, r.2)) := by
  induction cs with
  | nil => simp
  | cons c t ih =>
    rw [List.flatMap_cons, List.append_assoc]
    rw [escapeChar]
    split_ifs with h1 h2 h3 h4 h5 h6 h7 h8
    · rw [List.cons_append, List.cons_append, List.nil_append,
        pStrContent_escQ, ih, h1]
      cases pStrContent (qc :: rest) <;> simp
    · rw [List.cons_append, List.cons_append, List.nil_append,
        pStrContent_escB, ih, h2]
      cases pStrContent (qc :: rest) <;> simp
    · rw [List.cons_append, List.cons_append, List.nil_append,
        pStrContent_esc8, ih]
      have hcq : Char.ofNat 8 = c := by rw [← h3, Char.ofNat_toNat]
      rw [hcq]
      cases pStrContent (qc :: rest) <;> simp
    · rw [List.cons_append, List.cons_append, List.nil_append,
        pStrContent_esc9, ih]
      have hcq : Char.ofNat 9 = c := by rw [← h4, Char.ofNat_toNat]
      rw [hcq]
      cases pStrContent (qc :: rest) <;> simp
    · rw [List.cons_append, List.cons_append, List.nil_append,
        pStrContent_esc10, ih]
      have hcq : nlc = c := by
        have hten : nlc = Char.ofNat 10 := by decide
        rw [hten, ← h5, Char.ofNat_toNat]
      rw [hcq]
      cases pStrContent (qc :: rest) <;> simp
    · rw [List.cons_append, List.cons_append, List.nil_append,
        pStrContent_esc12, ih]
      have hcq : Char.ofNat 12 = c := by rw [← h6, Char.ofNat_toNat]
      rw [hcq]
      cases pStrContent (qc :: rest) <;> simp
    · rw [List.cons_append, List.cons_append, List.nil_append,
        pStrContent_esc13, ih]
      have hcq : Char.ofNat 13 = c := by rw [← h7, Char.ofNat_toNat]
      rw [hcq]
      cases pStrContent (qc :: rest) <;> simp
    · rw [List.cons_append, List.cons_append, List.cons_append, List.cons_append,
        List.cons_append, List.cons_append, List.nil_append,
        pStrContent_u (show hexVal '0' = some 0 by decide)
          (show hexVal '0' = some 0 by decide)
          (hexVal_hexDigit (c.toNat / 16) (by omega))
          (hexVal_hexDigit (c.toNat % 16) (Nat.mod_lt _ (by omega))), ih]
      have harith : 4096 * 0 + 256 * 0 + 16 * (c.toNat / 16) + c.toNat % 16 = c.toNat := by
        omega
      rw [harith, Char.ofNat_toNat]
      cases pStrContent (qc :: rest) <;> simp
    · rw [List.cons_append, List.nil_append,
        pStrContent_plain h1 h2 (by omega), ih]
      cases pStrContent (qc :: rest) <;> simp

theorem pStrContent_strL_tail (cs : List Char) (rest : List Char) :
    pStrContent (cs.flatMap escapeChar ++ (qc :: rest)) = some (cs, rest) := by
  rw [pStrContent_escape]
  rw [show pStrContent (qc :: rest) = some ([], rest) by
    rw [pStrContent.eq_def]; simp]
  simp

theorem pString_strL (s : String) (rest : List Char) :
    pString (strL s ++ rest) = some (s, rest) := by
  rw [strL, List.cons_append, pString]
  rw [if_pos rfl, List.append_assoc, List.cons_append, List.nil_append]
  rw [show escapeString s = s.data.flatMap escapeChar from rfl]
  rw [pStrContent_strL_tail]
  rfl

theorem pBool_boolL (b : Bool) (rest : List Char) :
    pBool (boolL b ++ rest) = some (b, rest) := by
  cases b with
  | true =>
    rw [show boolL true = ['t', 'r', 'u', 'e'] from rfl, pBool, expectTok_self]
  | false =>
    rw [show boolL false = ['f', 'a', 'l', 's', 'e'] from rfl, pBool]
    rw [show expectTok ['t', 'r', 'u', 'e'] (['f', 'a', 'l', 's', 'e'] ++ rest) = none by
      rw [List.cons_append, expectTok]; rw [if_neg (by decide)]]
    rw [expectTok_self]

end IosVibeLocalizer

namespace IosVibeLocalizer

theorem skipWs_ws (w : List Char) (hw : ∀ c ∈ w, c = ' ' ∨ c = nlc) :
    ∀ X, skipWs (w ++ X) = skipWs X := by
  induction w with
  | nil => intro X; rfl
  | cons c t ih =>
    intro X
    rcases hw c (List.mem_cons_self c t) with h | h <;>
      rw [List.cons_append, h]
    · rw [skipWs_sp, ih (fun x hx => hw x (List.mem_cons_of_mem c hx))]
    · rw [skipWs_nl, ih (fun x hx => hw x (List.mem_cons_of_mem c hx))]

theorem skipWs_lb (r : List Char) : skipWs (lbc :: r) = lbc :: r :=
  skipWs_nws (by decide) (by decide) r

theorem skipWs_rb (r : List Char) : skipWs (rbc :: r) = rbc :: r :=
  skipWs_nws (by decide) (by decide) r

theorem skipWs_colon (r : List Char) : skipWs (':' :: r) = ':' :: r :=
  skipWs_nws (by decide) (by decide) r

theorem skipWs_comma (r : List Char) : skipWs (',' :: r) = ',' :: r :=
  skipWs_nws (by decide) (by decide) r

theorem skipWs_strL (s : String) (X : List Char) :
    skipWs (strL s ++ X) = strL s ++ X := by
  rw [strL, List.cons_append]
  rw [skipWs_nws (by decide) (by decide)]

theorem skipWs_boolL (b : Bool) (X : List Char) :
    skipWs (boolL b ++ X) = boolL b ++ X := by
  cases b with
  | false =>
    rw [show boolL false = 'f' :: ['a', 'l', 's', 'e'] from rfl, List.cons_append,
      skipWs_nws (by decide) (by decide)]
  | true =>
    rw [show boolL true = 't' :: ['r', 'u', 'e'] from rfl, List.cons_append,
      skipWs_nws (by decide) (by decide)]

theorem expectTok_lb (r : List Char) : expectTok [lbc] (lbc :: r) = some r := by
  rw [expectTok]; simp [expectTok]

theorem expectTok_rb (r : List Char) : expectTok [rbc] (rbc :: r) = some r := by
  rw [expectTok]; simp [expectTok]

theorem expectTok_colon (r : List Char) : expectTok [':'] (':' :: r) = some r := by
  rw [expectTok]; simp [expectTok]

theorem expectTok_comma (r : List Char) : expectTok [','] (',' :: r) = some r := by
  rw [expectTok]; simp [expectTok]

theorem pUnit_print (sp : List Char) (hsp : ∀ c ∈ sp, c = ' ' ∨ c = nlc)
    (d : Nat) (u : StringUnit) (rest : List Char) :
    pUnit (printUnitL sp d u ++ rest) = some (u, rest) := by
  rw [printUnitL, printObjL]
  simp only [List.isEmpty_cons, Bool.false_eq_true, if_false, printItemsL,
    List.cons_append, List.append_assoc, List.nil_append]
  simp [pUnit, skipWs_lb, skipWs_nl, skipWs_sp, skipWs_indent, skipWs_strL,
    skipWs_colon, skipWs_comma, skipWs_rb, skipWs_ws sp hsp,
    expectTok_lb, expectTok_colon, expectTok_comma, expectTok_rb,
    pString_strL]

end IosVibeLocalizer

namespace IosVibeLocalizer

theorem head_strL (s : String) (X : List Char) :
    (strL s ++ X).head? = some qc := by
  rw [strL, List.cons_append]; rfl

theorem skipWs_printObjL (d : Nat) (sp : List Char)
    (kvs : List (String × List Char)) (X : List Char) :
    skipWs (printObjL d sp kvs ++ X) = printObjL d sp kvs ++ X := by
  rw [printObjL]
  split
  · rw [List.cons_append, skipWs_nws (by decide) (by decide)]
  · rw [List.cons_append, skipWs_nws (by decide) (by decide)]

theorem skipWs_printUnitL (sp : List Char) (d : Nat) (u : StringUnit)
    (X : List Char) :
    skipWs (printUnitL sp d u ++ X) = printUnitL sp d u ++ X := by
  rw [printUnitL]; exact skipWs_printObjL _ _ _ _

theorem skipWs_printLocL (sp : List Char) (d : Nat) (loc : Localization)
    (X : List Char) :
    skipWs (printLocL sp d loc ++ X) = printLocL sp d loc ++ X := by
  rw [printLocL]; exact skipWs_printObjL _ _ _ _

theorem skipWs_printLocsL (sp : List Char) (d : Nat)
    (locs : List (String × Localization)) (X : List Char) :
    skipWs (printLocsL sp d locs ++ X) = printLocsL sp d locs ++ X := by
  rw [printLocsL]; exact skipWs_printObjL _ _ _ _

theorem skipWs_printEntryL (sp : List Char) (d : Nat) (e : StringEntry)
    (X : List Char) :
    skipWs (printEntryL sp d e ++ X) = printEntryL sp d e ++ X := by
  rw [printEntryL]; exact skipWs_printObjL _ _ _ _

theorem head_printObjL (d : Nat) (sp : List Char)
    (kvs : List (String × List Char)) (X : List Char) :
    (printObjL d sp kvs ++ X).head? = some lbc := by
  rw [printObjL]
  split
  · rw [List.cons_append]; rfl
  · rw [List.cons_append]; rfl

theorem qc_ne_rbc : qc ≠ rbc := by decide

theorem pLoc_print (sp : List Char) (hsp : ∀ c ∈ sp, c = ' ' ∨ c = nlc)
    (d : Nat) (loc : Localization) (rest : List Char) :
    pLoc (printLocL sp d loc ++ rest) = some (loc, rest) := by
  rcases loc with ⟨su⟩
  cases su with
  | none =>
    rw [printLocL]
    simp only [Option.map_none', Option.toList_none, printObjL, List.isEmpty_nil,
      if_pos rfl, List.cons_append, List.nil_append]
    simp [pLoc, skipWs_lb, skipWs_rb, expectTok_lb]
  | some u =>
    rw [printLocL]
    simp only [Option.map_some', Option.toList_some, printObjL, List.isEmpty_cons,
      Bool.false_eq_true, if_false, printItemsL,
      List.cons_append, List.append_assoc, List.nil_append]
    simp [pLoc, skipWs_lb, skipWs_nl, skipWs_sp, skipWs_indent, skipWs_strL,
      skipWs_colon, skipWs_rb, skipWs_ws sp hsp, skipWs_printUnitL,
      expectTok_lb, expectTok_colon, expectTok_rb,
      pString_strL, head_strL, pUnit_print sp hsp, qc_ne_rbc, -List.head?_append]

end IosVibeLocalizer

namespace IosVibeLocalizer

theorem skipWs_skipWs (X : List Char) : skipWs (skipWs X) = skipWs X := by
  induction X with
  | nil => rfl
  | cons c r ih =>
    by_cases h : c = ' ' ∨ c = nlc
    · rw [skipWs]
      rw [if_pos h]
      exact ih
    · push_neg at h
      rw [skipWs_nws h.1 h.2, skipWs_nws h.1 h.2]

theorem pLocsItems_congr {s1 s2 : List Char} (h : skipWs s1 = skipWs s2)
    (fuel : Nat) : pLocsItems fuel s1 = pLocsItems fuel s2 := by
  cases fuel with
  | zero => rfl
  | succ f => rw [pLocsItems, pLocsItems, h]

theorem rbc_ne_comma : rbc ≠ ',' := by decide

theorem pLocsItems_print (sp : List Char) (hsp : ∀ c ∈ sp, c = ' ' ∨ c = nlc)
    (d : Nat) :
    ∀ (locs : List (String × Localization)) (f : Nat), locs ≠ [] →
      locs.length ≤ f + 1 → ∀ rest,
      pLocsItems (f + 1)
        (printItemsL (indentL (d + 1)) sp
          (locs.map (fun p => (p.1, printLocL sp (d + 1) p.2))) ++
         (nlc :: (indentL d ++ (rbc :: rest)))) = some (locs, rest) := by
  intro locs
  induction locs with
  | nil => intro f hne; cases hne rfl
  | cons p t ih =>
    intro f hne hf rest
    cases t with
    | nil =>
      simp only [List.map_cons, List.map_nil, printItemsL,
        List.cons_append, List.append_assoc, List.nil_append]
      simp [pLocsItems, skipWs_indent, skipWs_strL, skipWs_sp, skipWs_nl,
        skipWs_colon, skipWs_comma, skipWs_rb, skipWs_printLocL,
        skipWs_ws sp hsp, expectTok_colon, pString_strL,
        pLoc_print sp hsp, rbc_ne_comma, -List.head?_append]
    | cons q t2 =>
      have hfs : ∃ f2, f = f2 + 1 := by
        refine ⟨f - 1, ?_⟩
        have h2 : t2.length + 2 ≤ f + 1 := by simpa using hf
        omega
      rcases hfs with ⟨f2, rfl⟩
      rw [show ((p :: q :: t2).map (fun x => (x.1, printLocL sp (d + 1) x.2)))
          = (p.1, printLocL sp (d + 1) p.2) ::
            ((q :: t2).map (fun x => (x.1, printLocL sp (d + 1) x.2))) from rfl]
      rw [show printItemsL (indentL (d + 1)) sp
            ((p.1, printLocL sp (d + 1) p.2) ::
              ((q :: t2).map (fun x => (x.1, printLocL sp (d + 1) x.2))))
          = (indentL (d + 1) ++ (strL p.1 ++ (sp ++
              (':' :: ' ' :: printLocL sp (d + 1) p.2)))) ++
            (',' :: nlc :: printItemsL (indentL (d + 1)) sp
              ((q :: t2).map (fun x => (x.1, printLocL sp (d + 1) x.2)))) from rfl]
      rw [pLocsItems]
      simp only [List.cons_append, List.append_assoc, List.nil_append]
      simp [skipWs_indent, skipWs_strL, pString_strL,
        skipWs_ws sp hsp, skipWs_colon, expectTok_colon, skipWs_sp,
        skipWs_printLocL, pLoc_print sp hsp, skipWs_comma]
      rw [pLocsItems_congr (skipWs_nl _) (f2 + 1)]
      rw [show ((q.1, printLocL sp (d + 1) q.2) ::
            List.map (fun x => (x.1, printLocL sp (d + 1) x.2)) t2)
          = List.map (fun x => (x.1, printLocL sp (d + 1) x.2)) (q :: t2) from rfl]
      exact ih f2 (by simp) (by simpa using hf) rest
end IosVibeLocalizer

namespace IosVibeLocalizer

theorem pLocs_print (sp : List Char) (hsp : ∀ c ∈ sp, c = ' ' ∨ c = nlc)
    (d : Nat) (locs : List (String × Localization)) (fuel : Nat)
    (hf : locs.length ≤ fuel) (rest : List Char) :
    pLocs fuel (printLocsL sp d locs ++ rest) = some (locs, rest) := by
  cases locs with
  | nil =>
    rw [printLocsL, List.map_nil, printObjL]
    simp only [List.isEmpty_nil, if_pos rfl, List.cons_append, List.nil_append]
    simp [pLocs, skipWs_lb, skipWs_rb, expectTok_lb]
  | cons p t =>
    have hfs : ∃ f2, fuel = f2 + 1 := by
      refine ⟨fuel - 1, ?_⟩
      have h2 : t.length + 1 ≤ fuel := by simpa using hf
      omega
    rcases hfs with ⟨f2, rfl⟩
    have hitems := pLocsItems_print sp hsp d (p :: t) f2 (by simp)
      (by simpa using hf) rest
    rw [pLocsItems_congr (skipWs_skipWs _).symm (f2 + 1)] at hitems
    rw [printLocsL,
      show printObjL d sp ((p :: t).map (fun x => (x.1, printLocL sp (d + 1) x.2)))
        = lbc :: nlc ::
          (printItemsL (indentL (d + 1)) sp
            ((p :: t).map (fun x => (x.1, printLocL sp (d + 1) x.2))) ++
           (nlc :: (indentL d ++ [rbc]))) from rfl]
    simp only [List.cons_append, List.append_assoc, List.nil_append]
    rw [pLocs]
    simp only [skipWs_lb, expectTok_lb, Option.bind_eq_bind, Option.some_bind]
    have harg : skipWs (nlc ::
        (printItemsL (indentL (d + 1)) sp
          ((p :: t).map (fun x => (x.1, printLocL sp (d + 1) x.2))) ++
         (nlc :: (indentL d ++ (rbc :: rest))))) =
        skipWs (printItemsL (indentL (d + 1)) sp
          ((p :: t).map (fun x => (x.1, printLocL sp (d + 1) x.2))) ++
         (nlc :: (indentL d ++ (rbc :: rest)))) := skipWs_nl _
    have hhead : (skipWs (printItemsL (indentL (d + 1)) sp
        ((p :: t).map (fun x => (x.1, printLocL sp (d + 1) x.2))) ++
       (nlc :: (indentL d ++ (rbc :: rest))))).head? = some qc := by
      cases t with
      | nil =>
        rw [List.map_cons, List.map_nil, printItemsL]
        simp only [List.cons_append, List.append_assoc, List.nil_append]
        rw [skipWs_indent, skipWs_strL, head_strL]
      | cons q t2 =>
        rw [List.map_cons, List.map_cons,
          show printItemsL (indentL (d + 1)) sp
              ((p.1, printLocL sp (d + 1) p.2) ::
                ((q.1, printLocL sp (d + 1) q.2) ::
                  List.map (fun x => (x.1, printLocL sp (d + 1) x.2)) t2))
            = (indentL (d + 1) ++ (strL p.1 ++ (sp ++
                (':' :: ' ' :: printLocL sp (d + 1) p.2)))) ++
              (',' :: nlc :: printItemsL (indentL (d + 1)) sp
                ((q.1, printLocL sp (d + 1) q.2) ::
                  List.map (fun x => (x.1, printLocL sp (d + 1) x.2)) t2)) from rfl]
        simp only [List.cons_append, List.append_assoc, List.nil_append]
        rw [skipWs_indent, skipWs_strL, head_strL]
    rw [harg, hhead]
    rw [if_neg (by simp [qc_ne_rbc])]
    exact hitems

end IosVibeLocalizer

namespace IosVibeLocalizer

theorem printEntry_eq_fields (sp : List Char) (d : Nat) (e : StringEntry) :
    printEntryL sp d e = printObjL d sp ((fieldsOf e).map (fieldKV sp d)) := by
  rcases e with ⟨oc, ox, os, ol⟩
  cases oc <;> cases ox <;> cases os <;> cases ol <;> rfl

theorem fieldsFold (e : StringEntry) :
    (fieldsOf e).foldl applyField blankEntry = e := by
  rcases e with ⟨oc, ox, os, ol⟩
  cases oc <;> cases ox <;> cases os <;> cases ol <;> rfl

theorem fieldCost_pos (fd : EField) : 1 ≤ fieldCost fd := by
  cases fd <;> simp [fieldCost]

theorem pEntryItems_congr {s1 s2 : List Char} (h : skipWs s1 = skipWs s2)
    (fuel : Nat) (acc : StringEntry) :
    pEntryItems fuel acc s1 = pEntryItems fuel acc s2 := by
  cases fuel with
  | zero => rfl
  | succ f => rw [pEntryItems, pEntryItems, h]

theorem pStringsItems_congr {s1 s2 : List Char} (h : skipWs s1 = skipWs s2)
    (fuel : Nat) : pStringsItems fuel s1 = pStringsItems fuel s2 := by
  cases fuel with
  | zero => rfl
  | succ f => rw [pStringsItems, pStringsItems, h]

end IosVibeLocalizer

namespace IosVibeLocalizer

/-- Parsing one printed field member: consumes the key, colon and value,
returning the updated accumulator.  Stated per field kind through the
dispatch of `pEntryItems`. -/
theorem pEntryItems_print (sp : List Char) (hsp : ∀ c ∈ sp, c = ' ' ∨ c = nlc)
    (d : Nat) :
    ∀ (fs : List EField) (acc : StringEntry) (f : Nat), fs ≠ [] →
      fieldsCost fs ≤ f + 1 → ∀ rest,
      pEntryItems (f + 1) acc
        (printItemsL (indentL (d + 1)) sp (fs.map (fieldKV sp d)) ++
         (nlc :: (indentL d ++ (rbc :: rest)))) =
        some (fs.foldl applyField acc, rest) := by
  intro fs
  induction fs with
  | nil => intro acc f hne; cases hne rfl
  | cons fd t ih =>
    intro acc f hne hf rest
    cases t with
    | nil =>
      rw [List.map_cons, List.map_nil, printItemsL]
      simp only [List.cons_append, List.append_assoc, List.nil_append]
      cases fd with
      | cm s =>
        simp [pEntryItems, fieldKV, applyField, skipWs_indent, skipWs_strL,
          skipWs_sp, skipWs_nl, skipWs_colon, skipWs_rb, skipWs_ws sp hsp,
          expectTok_colon, pString_strL, rbc_ne_comma, fieldsCost, fieldCost]
      | ex s =>
        simp [pEntryItems, fieldKV, applyField, skipWs_indent, skipWs_strL,
          skipWs_sp, skipWs_nl, skipWs_colon, skipWs_rb, skipWs_ws sp hsp,
          expectTok_colon, pString_strL, rbc_ne_comma, fieldsCost, fieldCost]
      | st b =>
        simp [pEntryItems, fieldKV, applyField, skipWs_indent, skipWs_strL,
          skipWs_sp, skipWs_nl, skipWs_colon, skipWs_rb, skipWs_ws sp hsp,
          skipWs_boolL, expectTok_colon, pString_strL, pBool_boolL,
          rbc_ne_comma, fieldsCost, fieldCost]
      | lc l =>
        have hfl : l.length ≤ f := by
          simp only [fieldsCost, List.map_cons, List.map_nil, List.sum_cons,
            List.sum_nil, fieldCost] at hf
          omega
        simp [pEntryItems, fieldKV, applyField, skipWs_indent, skipWs_strL,
          skipWs_sp, skipWs_nl, skipWs_colon, skipWs_rb, skipWs_ws sp hsp,
          skipWs_printLocsL, expectTok_colon, pString_strL,
          pLocs_print sp hsp (d + 1) l f hfl, rbc_ne_comma]
    | cons fd2 t2 =>
      have hfs : ∃ f2, f = f2 + 1 := by
        refine ⟨f - 1, ?_⟩
        have h1 := fieldCost_pos fd
        have h2 := fieldCost_pos fd2
        simp only [fieldsCost, List.map_cons, List.sum_cons] at hf
        omega
      rcases hfs with ⟨f2, rfl⟩
      rw [List.map_cons,
        show printItemsL (indentL (d + 1)) sp
            (fieldKV sp d fd :: ((fd2 :: t2).map (fieldKV sp d)))
          = (indentL (d + 1) ++ (strL (fieldKV sp d fd).1 ++ (sp ++
              (':' :: ' ' :: (fieldKV sp d fd).2)))) ++
            (',' :: nlc :: printItemsL (indentL (d + 1)) sp
              ((fd2 :: t2).map (fieldKV sp d))) from rfl]
      simp only [List.cons_append, List.append_assoc, List.nil_append]
      have htail := ih (applyField acc fd) f2 (by simp)
        (by
          simp only [fieldsCost, List.map_cons, List.sum_cons] at hf ⊢
          have h1 := fieldCost_pos fd
          omega) rest
      cases fd with
      | cm s =>
        rw [show fieldKV sp d (EField.cm s) = ("comment", strL s) from rfl]
        rw [pEntryItems]
        simp [skipWs_indent, skipWs_strL, pString_strL, skipWs_ws sp hsp,
          skipWs_colon, expectTok_colon, skipWs_sp, skipWs_comma, applyField]
        rw [pEntryItems_congr (skipWs_nl _) (f2 + 1) _]
        simpa [applyField] using htail
      | ex s =>
        rw [show fieldKV sp d (EField.ex s) = ("extractionState", strL s) from rfl]
        rw [pEntryItems]
        simp [skipWs_indent, skipWs_strL, pString_strL, skipWs_ws sp hsp,
          skipWs_colon, expectTok_colon, skipWs_sp, skipWs_comma, applyField]
        rw [pEntryItems_congr (skipWs_nl _) (f2 + 1) _]
        simpa [applyField] using htail
      | st b =>
        rw [show fieldKV sp d (EField.st b) = ("shouldTranslate", boolL b) from rfl]
        rw [pEntryItems]
        simp [skipWs_indent, skipWs_strL, pString_strL, skipWs_ws sp hsp,
          skipWs_colon, expectTok_colon, skipWs_sp, skipWs_comma, applyField,
          skipWs_boolL, pBool_boolL]
        rw [pEntryItems_congr (skipWs_nl _) (f2 + 1) _]
        simpa [applyField] using htail
      | lc l =>
        have hfl : l.length ≤ f2 + 1 := by
          simp only [fieldsCost, List.map_cons, List.sum_cons, fieldCost] at hf
          omega
        rw [show fieldKV sp d (EField.lc l)
            = ("localizations", printLocsL sp (d + 1) l) from rfl]
        rw [pEntryItems]
        simp [skipWs_indent, skipWs_strL, pString_strL, skipWs_ws sp hsp,
          skipWs_colon, expectTok_colon, skipWs_sp, skipWs_comma, applyField,
          skipWs_printLocsL, pLocs_print sp hsp (d + 1) l (f2 + 1) hfl]
        rw [pEntryItems_congr (skipWs_nl _) (f2 + 1) _]
        simpa [applyField] using htail

end IosVibeLocalizer

namespace IosVibeLocalizer

theorem fieldsOf_nil (e : StringEntry) (h : fieldsOf e = []) : e = blankEntry := by
  rcases e with ⟨oc, ox, os, ol⟩
  cases oc <;> cases ox <;> cases os <;> cases ol <;>
    simp_all [fieldsOf, blankEntry]

/-- Parsing the printed form of an entry recovers the entry, for any fuel at
least the entry field cost. -/
theorem pEntry_print (sp : List Char) (hsp : ∀ c ∈ sp, c = ' ' ∨ c = nlc)
    (d : Nat) (e : StringEntry) (fuel : Nat)
    (hf : fieldsCost (fieldsOf e) ≤ fuel) (rest : List Char) :
    pEntry fuel (printEntryL sp d e ++ rest) = some (e, rest) := by
  rcases he : fieldsOf e with _ | ⟨fd, t⟩
  · have hbe : e = blankEntry := fieldsOf_nil e he
    rw [printEntry_eq_fields, he, List.map_nil, printObjL]
    simp only [List.isEmpty_nil, if_pos rfl, List.cons_append, List.nil_append]
    simp [pEntry, skipWs_lb, skipWs_rb, expectTok_lb, hbe]
  · have hfs : ∃ f2, fuel = f2 + 1 := by
      refine ⟨fuel - 1, ?_⟩
      have h1 := fieldCost_pos fd
      rw [he] at hf
      simp only [fieldsCost, List.map_cons, List.sum_cons] at hf
      omega
    rcases hfs with ⟨f2, rfl⟩
    have hitems := pEntryItems_print sp hsp d (fd :: t) blankEntry f2
      (by simp) (by rw [← he]; exact hf) rest
    rw [pEntryItems_congr (skipWs_skipWs _).symm (f2 + 1) blankEntry] at hitems
    have hfold : (fd :: t).foldl applyField blankEntry = e := by
      rw [← he]; exact fieldsFold e
    rw [hfold] at hitems
    rw [printEntry_eq_fields, he,
      show printObjL d sp ((fd :: t).map (fieldKV sp d))
        = lbc :: nlc ::
          (printItemsL (indentL (d + 1)) sp ((fd :: t).map (fieldKV sp d)) ++
           (nlc :: (indentL d ++ [rbc]))) from rfl]
    simp only [List.cons_append, List.append_assoc, List.nil_append]
    rw [pEntry]
    simp only [skipWs_lb, expectTok_lb, Option.bind_eq_bind, Option.some_bind]
    have harg : skipWs (nlc ::
        (printItemsL (indentL (d + 1)) sp ((fd :: t).map (fieldKV sp d)) ++
         (nlc :: (indentL d ++ (rbc :: rest))))) =
        skipWs (printItemsL (indentL (d + 1)) sp ((fd :: t).map (fieldKV sp d)) ++
         (nlc :: (indentL d ++ (rbc :: rest)))) := skipWs_nl _
    have hhead : (skipWs (printItemsL (indentL (d + 1)) sp
        ((fd :: t).map (fieldKV sp d)) ++
       (nlc :: (indentL d ++ (rbc :: rest))))).head? = some qc := by
      cases t with
      | nil =>
        rw [List.map_cons, List.map_nil, printItemsL]
        simp only [List.cons_append, List.append_assoc, List.nil_append]
        rw [skipWs_indent, skipWs_strL, head_strL]
      | cons fd2 t2 =>
        rw [List.map_cons,
          show printItemsL (indentL (d + 1)) sp
              (fieldKV sp d fd :: ((fd2 :: t2).map (fieldKV sp d)))
            = (indentL (d + 1) ++ (strL (fieldKV sp d fd).1 ++ (sp ++
                (':' :: ' ' :: (fieldKV sp d fd).2)))) ++
              (',' :: nlc :: printItemsL (indentL (d + 1)) sp
                ((fd2 :: t2).map (fieldKV sp d))) from rfl]
        simp only [List.cons_append, List.append_assoc, List.nil_append]
        rw [skipWs_indent, skipWs_strL, head_strL]
    rw [harg, hhead]
    rw [if_neg (by simp [qc_ne_rbc])]
    exact hitems

end IosVibeLocalizer

namespace IosVibeLocalizer

/-- Parsing the printed members of a non-empty `strings` map recovers the
member list, for any fuel at least the map cost. -/
theorem pStringsItems_print (sp : List Char) (hsp : ∀ c ∈ sp, c = ' ' ∨ c = nlc)
    (d : Nat) :
    ∀ (strs : List (String × StringEntry)) (f : Nat), strs ≠ [] →
      stringsCost strs ≤ f + 1 → ∀ rest,
      pStringsItems (f + 1)
        (printItemsL (indentL (d + 1)) sp
          (strs.map (fun p => (p.1, printEntryL sp (d + 1) p.2))) ++
         (nlc :: (indentL d ++ (rbc :: rest)))) = some (strs, rest) := by
  intro strs
  induction strs with
  | nil => intro f hne; cases hne rfl
  | cons p t ih =>
    intro f hne hf rest
    cases t with
    | nil =>
      have hfp : fieldsCost (fieldsOf p.2) ≤ f := by
        simp only [stringsCost, List.map_cons, List.map_nil, List.sum_cons,
          List.sum_nil] at hf
        omega
      simp only [List.map_cons, List.map_nil, printItemsL,
        List.cons_append, List.append_assoc, List.nil_append]
      simp [pStringsItems, skipWs_indent, skipWs_strL, skipWs_sp, skipWs_nl,
        skipWs_colon, skipWs_comma, skipWs_rb, skipWs_printEntryL,
        skipWs_ws sp hsp, expectTok_colon, pString_strL,
        pEntry_print sp hsp (d + 1) p.2 f hfp, rbc_ne_comma, -List.head?_append]
    | cons q t2 =>
      have hfs : ∃ f2, f = f2 + 1 := by
        refine ⟨f - 1, ?_⟩
        simp only [stringsCost, List.map_cons, List.sum_cons] at hf
        omega
      rcases hfs with ⟨f2, rfl⟩
      have hfp : fieldsCost (fieldsOf p.2) ≤ f2 + 1 := by
        simp only [stringsCost, List.map_cons, List.sum_cons] at hf
        omega
      rw [show ((p :: q :: t2).map (fun x => (x.1, printEntryL sp (d + 1) x.2)))
          = (p.1, printEntryL sp (d + 1) p.2) ::
            ((q :: t2).map (fun x => (x.1, printEntryL sp (d + 1) x.2))) from rfl]
      rw [show printItemsL (indentL (d + 1)) sp
            ((p.1, printEntryL sp (d + 1) p.2) ::
              ((q :: t2).map (fun x => (x.1, printEntryL sp (d + 1) x.2))))
          = (indentL (d + 1) ++ (strL p.1 ++ (sp ++
              (':' :: ' ' :: printEntryL sp (d + 1) p.2)))) ++
            (',' :: nlc :: printItemsL (indentL (d + 1)) sp
              ((q :: t2).map (fun x => (x.1, printEntryL sp (d + 1) x.2)))) from rfl]
      rw [pStringsItems]
      simp only [List.cons_append, List.append_assoc, List.nil_append]
      simp [skipWs_indent, skipWs_strL, pString_strL,
        skipWs_ws sp hsp, skipWs_colon, expectTok_colon, skipWs_sp,
        skipWs_printEntryL, pEntry_print sp hsp (d + 1) p.2 (f2 + 1) hfp,
        skipWs_comma]
      rw [pStringsItems_congr (skipWs_nl _) (f2 + 1)]
      rw [show ((q.1, printEntryL sp (d + 1) q.2) ::
            List.map (fun x => (x.1, printEntryL sp (d + 1) x.2)) t2)
          = List.map (fun x => (x.1, printEntryL sp (d + 1) x.2)) (q :: t2) from rfl]
      refine ih f2 (by simp) ?_ rest
      simp only [stringsCost, List.map_cons, List.sum_cons] at hf ⊢
      omega

end IosVibeLocalizer

namespace IosVibeLocalizer

/-- Parsing the printed form of a `strings` map recovers the map. -/
theorem pStrings_print (sp : List Char) (hsp : ∀ c ∈ sp, c = ' ' ∨ c = nlc)
    (d : Nat) (strs : List (String × StringEntry)) (fuel : Nat)
    (hf : stringsCost strs ≤ fuel) (rest : List Char) :
    pStrings fuel
      (printObjL d sp (strs.map (fun p => (p.1, printEntryL sp (d + 1) p.2))) ++
        rest) = some (strs, rest) := by
  cases strs with
  | nil =>
    rw [List.map_nil, printObjL]
    simp only [List.isEmpty_nil, if_pos rfl, List.cons_append, List.nil_append]
    simp [pStrings, skipWs_lb, skipWs_rb, expectTok_lb]
  | cons p t =>
    have hfs : ∃ f2, fuel = f2 + 1 := by
      refine ⟨fuel - 1, ?_⟩
      simp only [stringsCost, List.map_cons, List.sum_cons] at hf
      omega
    rcases hfs with ⟨f2, rfl⟩
    have hitems := pStringsItems_print sp hsp d (p :: t) f2 (by simp) hf rest
    rw [pStringsItems_congr (skipWs_skipWs _).symm (f2 + 1)] at hitems
    rw [show printObjL d sp
          ((p :: t).map (fun x => (x.1, printEntryL sp (d + 1) x.2)))
        = lbc :: nlc ::
          (printItemsL (indentL (d + 1)) sp
            ((p :: t).map (fun x => (x.1, printEntryL sp (d + 1) x.2))) ++
           (nlc :: (indentL d ++ [rbc]))) from rfl]
    simp only [List.cons_append, List.append_assoc, List.nil_append]
    rw [pStrings]
    simp only [skipWs_lb, expectTok_lb, Option.bind_eq_bind, Option.some_bind]
    have harg : skipWs (nlc ::
        (printItemsL (indentL (d + 1)) sp
          ((p :: t).map (fun x => (x.1, printEntryL sp (d + 1) x.2))) ++
         (nlc :: (indentL d ++ (rbc :: rest))))) =
        skipWs (printItemsL (indentL (d + 1)) sp
          ((p :: t).map (fun x => (x.1, printEntryL sp (d + 1) x.2))) ++
         (nlc :: (indentL d ++ (rbc :: rest)))) := skipWs_nl _
    have hhead : (skipWs (printItemsL (indentL (d + 1)) sp
        ((p :: t).map (fun x => (x.1, printEntryL sp (d + 1) x.2))) ++
       (nlc :: (indentL d ++ (rbc :: rest))))).head? = some qc := by
      cases t with
      | nil =>
        rw [List.map_cons, List.map_nil, printItemsL]
        simp only [List.cons_append, List.append_assoc, List.nil_append]
        rw [skipWs_indent, skipWs_strL, head_strL]
      | cons q t2 =>
        rw [List.map_cons, List.map_cons,
          show printItemsL (indentL (d + 1)) sp
              ((p.1, printEntryL sp (d + 1) p.2) ::
                ((q.1, printEntryL sp (d + 1) q.2) ::
                  List.map (fun x => (x.1, printEntryL sp (d + 1) x.2)) t2))
            = (indentL (d + 1) ++ (strL p.1 ++ (sp ++
                (':' :: ' ' :: printEntryL sp (d + 1) p.2)))) ++
              (',' :: nlc :: printItemsL (indentL (d + 1)) sp
                ((q.1, printEntryL sp (d + 1) q.2) ::
                  List.map (fun x => (x.1, printEntryL sp (d + 1) x.2)) t2)) from rfl]
        simp only [List.cons_append, List.append_assoc, List.nil_append]
        rw [skipWs_indent, skipWs_strL, head_strL]
    rw [harg, hhead]
    rw [if_neg (by simp [qc_ne_rbc])]
    exact hitems

end IosVibeLocalizer

namespace IosVibeLocalizer

/-- Parsing the printed form of a whole catalog recovers the catalog, for any
fuel at least the `strings` map cost. -/
theorem pCatalog_print (sp : List Char) (hsp : ∀ c ∈ sp, c = ' ' ∨ c = nlc)
    (c : XCStrings) (fuel : Nat) (hf : stringsCost c.strings ≤ fuel)
    (rest : List Char) :
    pCatalog fuel (printCatalogL sp c ++ rest) = some (c, rest) := by
  rw [printCatalogL, printObjL]
  simp only [List.isEmpty_cons, Bool.false_eq_true, if_false, printItemsL,
    List.cons_append, List.append_assoc, List.nil_append]
  rw [pCatalog]
  simp [skipWs_lb, skipWs_nl, skipWs_sp, skipWs_indent, skipWs_strL,
    skipWs_colon, skipWs_comma, skipWs_rb, skipWs_ws sp hsp, skipWs_printObjL,
    expectTok_lb, expectTok_colon, expectTok_comma, expectTok_rb,
    pString_strL, pStrings_print sp hsp 1 c.strings fuel hf]

end IosVibeLocalizer

namespace IosVibeLocalizer

theorem strL_length (s : String) : 2 ≤ (strL s).length := by
  simp only [strL, List.length_cons, List.length_append]
  omega

theorem printItemsL_length_ge (ind sp : List Char) :
    ∀ kvs : List (String × List Char),
      kvs.length ≤ (printItemsL ind sp kvs).length := by
  intro kvs
  induction kvs with
  | nil => simp [printItemsL]
  | cons kv rest ih =>
    cases rest with
    | nil =>
      have h := strL_length kv.1
      rw [show printItemsL ind sp [kv]
          = ind ++ (strL kv.1 ++ (sp ++ (':' :: ' ' :: kv.2))) from rfl]
      simp only [List.length_append, List.length_cons, List.length_nil]
      omega
    | cons kv2 t =>
      have h := strL_length kv.1
      rw [show printItemsL ind sp (kv :: kv2 :: t)
          = (ind ++ (strL kv.1 ++ (sp ++ (':' :: ' ' :: kv.2)))) ++
            (',' :: nlc :: printItemsL ind sp (kv2 :: t)) from rfl]
      simp only [List.length_cons] at ih ⊢
      simp only [List.length_append, List.length_cons]
      omega

theorem printLocsL_length (sp : List Char) (d : Nat)
    (locs : List (String × Localization)) :
    1 + locs.length ≤ (printLocsL sp d locs).length := by
  cases locs with
  | nil => simp [printLocsL, printObjL]
  | cons p t =>
    have h := printItemsL_length_ge (indentL (d + 1)) sp
      ((p :: t).map (fun x => (x.1, printLocL sp (d + 1) x.2)))
    rw [printLocsL,
      show printObjL d sp ((p :: t).map (fun x => (x.1, printLocL sp (d + 1) x.2)))
        = lbc :: nlc ::
          (printItemsL (indentL (d + 1)) sp
            ((p :: t).map (fun x => (x.1, printLocL sp (d + 1) x.2))) ++
           (nlc :: (indentL d ++ [rbc]))) from rfl]
    simp only [List.length_map] at h
    simp only [List.length_cons, List.length_append]
    simp only [List.length_cons] at h ⊢
    omega

theorem fieldKV_length (sp : List Char) (d : Nat) (fd : EField) :
    fieldCost fd ≤ (fieldKV sp d fd).2.length := by
  cases fd with
  | cm s =>
    have h := strL_length s
    simp only [fieldKV, fieldCost]
    omega
  | ex s =>
    have h := strL_length s
    simp only [fieldKV, fieldCost]
    omega
  | st b => cases b <;> simp [fieldKV, fieldCost, boolL]
  | lc l =>
    have h := printLocsL_length sp (d + 1) l
    simp only [fieldKV, fieldCost]
    omega

theorem fieldsItems_length (ind sp : List Char) (d : Nat) :
    ∀ fs : List EField,
      fieldsCost fs ≤ (printItemsL ind sp (fs.map (fieldKV sp d))).length := by
  intro fs
  induction fs with
  | nil => simp [fieldsCost, printItemsL]
  | cons fd t ih =>
    cases t with
    | nil =>
      have h := fieldKV_length sp d fd
      rw [show printItemsL ind sp (([fd] : List EField).map (fieldKV sp d))
          = ind ++ (strL (fieldKV sp d fd).1 ++
              (sp ++ (':' :: ' ' :: (fieldKV sp d fd).2))) from rfl]
      simp only [fieldsCost, List.map_cons, List.map_nil, List.sum_cons,
        List.sum_nil, List.length_append, List.length_cons]
      omega
    | cons fd2 t2 =>
      have h := fieldKV_length sp d fd
      rw [show printItemsL ind sp ((fd :: fd2 :: t2).map (fieldKV sp d))
          = (ind ++ (strL (fieldKV sp d fd).1 ++
              (sp ++ (':' :: ' ' :: (fieldKV sp d fd).2)))) ++
            (',' :: nlc :: printItemsL ind sp ((fd2 :: t2).map (fieldKV sp d)))
          from rfl]
      simp only [fieldsCost, List.map_cons, List.sum_cons] at ih ⊢
      simp only [List.length_append, List.length_cons]
      omega

theorem printEntryL_length (sp : List Char) (d : Nat) (e : StringEntry) :
    1 + fieldsCost (fieldsOf e) ≤ (printEntryL sp d e).length := by
  rw [printEntry_eq_fields]
  rcases he : fieldsOf e with _ | ⟨fd, t⟩
  · simp [fieldsCost, printObjL]
  · have h := fieldsItems_length (indentL (d + 1)) sp d (fd :: t)
    rw [show printObjL d sp ((fd :: t).map (fieldKV sp d))
        = lbc :: nlc ::
          (printItemsL (indentL (d + 1)) sp ((fd :: t).map (fieldKV sp d)) ++
           (nlc :: (indentL d ++ [rbc]))) from rfl]
    simp only [List.length_cons, List.length_append]
    omega

theorem stringsItems_length (ind sp : List Char) (d2 : Nat) :
    ∀ strs : List (String × StringEntry),
      stringsCost strs ≤
        (printItemsL ind sp
          (strs.map (fun p => (p.1, printEntryL sp d2 p.2)))).length := by
  intro strs
  induction strs with
  | nil => simp [stringsCost, printItemsL]
  | cons p t ih =>
    cases t with
    | nil =>
      have h := printEntryL_length sp d2 p.2
      rw [show printItemsL ind sp
            (([p] : List (String × StringEntry)).map
              (fun x => (x.1, printEntryL sp d2 x.2)))
          = ind ++ (strL p.1 ++ (sp ++ (':' :: ' ' :: printEntryL sp d2 p.2)))
          from rfl]
      simp only [stringsCost, List.map_cons, List.map_nil, List.sum_cons,
        List.sum_nil, List.length_append, List.length_cons]
      omega
    | cons q t2 =>
      have h := printEntryL_length sp d2 p.2
      rw [show printItemsL ind sp
            ((p :: q :: t2).map (fun x => (x.1, printEntryL sp d2 x.2)))
          = (ind ++ (strL p.1 ++ (sp ++ (':' :: ' ' :: printEntryL sp d2 p.2)))) ++
            (',' :: nlc :: printItemsL ind sp
              ((q :: t2).map (fun x => (x.1, printEntryL sp d2 x.2)))) from rfl]
      simp only [stringsCost, List.map_cons, List.sum_cons] at ih ⊢
      simp only [List.length_append, List.length_cons]
      omega

theorem printObjStrings_length (sp : List Char) (d d2 : Nat)
    (strs : List (String × StringEntry)) :
    stringsCost strs ≤
      (printObjL d sp
        (strs.map (fun p => (p.1, printEntryL sp d2 p.2)))).length := by
  cases strs with
  | nil => simp [stringsCost, printObjL]
  | cons p t =>
    have h := stringsItems_length (indentL (d + 1)) sp d2 (p :: t)
    rw [show printObjL d sp ((p :: t).map (fun x => (x.1, printEntryL sp d2 x.2)))
        = lbc :: nlc ::
          (printItemsL (indentL (d + 1)) sp
            ((p :: t).map (fun x => (x.1, printEntryL sp d2 x.2))) ++
           (nlc :: (indentL d ++ [rbc]))) from rfl]
    simp only [List.length_cons, List.length_append]
    omega

theorem printCatalogL_length (sp : List Char) (c : XCStrings) :
    stringsCost c.strings ≤ (printCatalogL sp c).length := by
  have h := printObjStrings_length sp 1 2 c.strings
  rw [printCatalogL, printObjL]
  simp only [List.isEmpty_cons, Bool.false_eq_true, if_false, printItemsL,
    List.cons_append, List.append_assoc, List.nil_append]
  simp only [List.length_cons, List.length_append]
  omega

end IosVibeLocalizer

namespace IosVibeLocalizer

/-- Parsing the serializer's output recovers the catalog exactly. -/
theorem parseXcstrings_format (c : XCStrings) :
    parseXcstrings (formatXcstringsJson c) = some c := by
  have hsp : ∀ x ∈ ([' '] : List Char), x = ' ' ∨ x = nlc := by
    intro x hx
    simp only [List.mem_singleton] at hx
    exact Or.inl hx
  have hlen := printCatalogL_length [' '] c
  have h := pCatalog_print [' '] hsp c (printCatalogL [' '] c).length hlen []
  rw [List.append_nil] at h
  rw [formatXcstringsJson, parseXcstrings]
  rw [show (String.mk (printCatalogL [' '] c)).length
      = (printCatalogL [' '] c).length from rfl]
  rw [show (String.mk (printCatalogL [' '] c)).data
      = printCatalogL [' '] c from rfl]
  rw [h]
  rfl

/-- C9: serializing a catalog, parsing the produced text back into a catalog,
and serializing again yields text byte-identical to the first serialization —
the parse succeeds and the re-serialized text equals the first output
exactly. -/
theorem format_parse_format_roundtrip (c : XCStrings) :
    (parseXcstrings (formatXcstringsJson c)).map formatXcstringsJson
      = some (formatXcstringsJson c) := by
  rw [parseXcstrings_format]
  rfl

end IosVibeLocalizer
